import Mathlib

/-!
The converter depthimage_to_laserscan: selection policy, row-band projector, field of view.

A shallow embedding of `src/src/DepthImageToLaserScan.cpp` and
`src/include/depthimage_to_laserscan/utils.h`.

Floating-point values are embedded by their IEEE-754 class: a value is NaN,
one of the two signed infinities, or a finite number carried as a rational
(every finite `float`/`double` is a dyadic rational, and `-0.0` and `+0.0`
compare equal, so both are `fin 0`).  The comparisons `<=` and `<` and the
classifiers `std::isfinite` and `isnan` are exact on this embedding.
Arithmetic that rounds (`atan2`, `sqrt`, `pow`, products and quotients of
floats) is not interpreted: it enters the projector as the fields of
`PixelMath`.  Where a statement is about the values themselves (the angles of
the field of view, the end-to-end scenario), square root, arc cosine and arc
tangent are the real functions and every operation is exact.
-/

namespace depthimage_to_laserscan

/-! ## Floating-point values -/

/-- An IEEE-754 value by class: not-a-number, plus or minus infinity, or finite. -/
inductive FVal where
  | nan : FVal
  | pinf : FVal
  | ninf : FVal
  | fin (x : ℚ) : FVal
  deriving DecidableEq, Repr

namespace FVal

/-- Embedding of `std::isfinite`. -/
def isfinite : FVal → Bool
  | fin _ => true
  | _ => false

/-- Embedding of `isnan`. -/
def isnan : FVal → Bool
  | nan => true
  | _ => false

/-- IEEE `a <= b`: false as soon as one operand is NaN. -/
def le : FVal → FVal → Bool
  | nan, _ => false
  | _, nan => false
  | ninf, _ => true
  | _, pinf => true
  | pinf, _ => false
  | _, ninf => false
  | fin a, fin b => decide (a ≤ b)

/-- IEEE `a < b`: false as soon as one operand is NaN. -/
def lt : FVal → FVal → Bool
  | nan, _ => false
  | _, nan => false
  | pinf, _ => false
  | _, ninf => false
  | ninf, _ => true
  | _, pinf => true
  | fin a, fin b => decide (a < b)

end FVal

open FVal

/-! ## The selection policy (`DepthImageToLaserScan::use_point`, lines 114-140) -/

/-- Embedding of `DepthImageToLaserScan::use_point`. -/
def use_point (new_value old_value range_min range_max : FVal) : Bool :=
  let new_finite := isfinite new_value
  let old_finite := isfinite old_value
  if !new_finite && !old_finite then
    if !isnan new_value then true else false
  else
    let range_check := le range_min new_value && le new_value range_max
    if !range_check then false
    else if !old_finite then true
    else
      let shorter_check := lt new_value old_value
      shorter_check

/-- The merge step of the projector's inner loop (lines 89-92), on one bin:
the bin takes the candidate when `use_point` says so and keeps its value otherwise. -/
def merge (old c range_min range_max : FVal) : FVal :=
  if use_point c old range_min range_max then c else old

/-- The successive merges of one bin: the value the bin holds after the candidates `cs`
have been offered to it in order, each through the merge step. -/
def mergeSeq (old : FVal) (cs : List FVal) (range_min range_max : FVal) : FVal :=
  cs.foldl (fun bin c => merge bin c range_min range_max) old

/-! ### The policy as the specification words it -/

/-- A value is finite when it is a number: neither NaN nor an infinity. -/
def IsFiniteVal (v : FVal) : Prop := ∃ q : ℚ, v = fin q

/-- The extended-rational reading of a value that is not NaN. -/
def toExt : FVal → Option (WithBot (WithTop ℚ))
  | nan => none
  | pinf => some ((⊤ : WithTop ℚ) : WithBot (WithTop ℚ))
  | ninf => some ⊥
  | fin q => some (((q : WithTop ℚ)) : WithBot (WithTop ℚ))

/-- Ordered comparison of two values on the extended line; nothing compares with NaN. -/
def ExtLE (a b : FVal) : Prop :=
  ∃ x y, toExt a = some x ∧ toExt b = some y ∧ x ≤ y

/-- Strict comparison of two values on the extended line; nothing compares with NaN. -/
def ExtLT (a b : FVal) : Prop :=
  ∃ x y, toExt a = some x ∧ toExt b = some y ∧ x < y

/-- The value `v` is within the closed interval `[lo, hi]`. -/
def Within (v lo hi : FVal) : Prop := ExtLE lo v ∧ ExtLE v hi

/-- The four-case selection policy of the specification, section 4.2, as a relation
between the arguments and the answer `res` ("replace old with new"). -/
def UsePointSpec (new old range_min range_max : FVal) (res : Bool) : Prop :=
  ((¬ IsFiniteVal new ∧ ¬ IsFiniteVal old) → (res = true ↔ new ≠ nan)) ∧
  (¬ (¬ IsFiniteVal new ∧ ¬ IsFiniteVal old) →
    ((¬ Within new range_min range_max → res = false) ∧
     (Within new range_min range_max →
       ((¬ IsFiniteVal old → res = true) ∧
        (IsFiniteVal old → (res = true ↔ ExtLT new old))))))

/-! ## The 5-6-5 reconstruction (`utils.h`) -/

/-- Embedding of `rgb565ToUint16`; the three arguments are `uint8_t`, the result `uint16_t`. -/
def rgb565ToUint16 (r g b : Nat) : Nat :=
  ((((r % 256) >>> 3) <<< 11) ||| (((g % 256) >>> 2) <<< 5) ||| ((b % 256) >>> 3)) % 65536

/-! ## Data model -/

/-- The depth frame (`sensor_msgs::Image`).  `data` is the byte buffer.  `samples16` and
`samplesF` are the same buffer seen through `reinterpret_cast<const T*>` for `T = uint16_t`
and `T = float`; the byte layout of those two types is not modelled. -/
structure Image where
  frame_id : String
  height : Nat
  width : Nat
  encoding : String
  step : Nat
  data : List Nat
  samples16 : List Nat
  samplesF : List FVal

/-- The intrinsics read from `image_geometry::PinholeCameraModel`. -/
structure CameraModel where
  cx : ℚ
  cy : ℚ
  fx : ℚ
  fy : ℚ

/-- The scan message (`sensor_msgs::LaserScan`). -/
structure LaserScan where
  frame_id : String
  angle_min : FVal
  angle_max : FVal
  angle_increment : FVal
  time_increment : FVal
  scan_time : FVal
  range_min : FVal
  range_max : FVal
  ranges : List FVal
  deriving DecidableEq, Repr

/-- The converter's configuration members, set by `set_scan_time`, `set_range_limits`,
`set_scan_height` and `set_output_frame`. -/
structure Config where
  scan_time_ : FVal
  range_min_ : FVal
  range_max_ : FVal
  scan_height_ : Int
  output_frame_id_ : String

/-- The floating-point results of one call that are not interpreted, and the validity
predicates of `DepthTraits`, whose header is not part of the sources.
* `valid`: `DepthTraits<uint16_t>::valid`;
* `validF`: `DepthTraits<float>::valid`;
* `quotient u`: the `double` `(th - angle_min) / angle_increment` of column `u` (lines 75-76);
* `range u depth`: `sqrt(pow(x, 2.0) + pow(z, 2.0))` for column `u` and a valid raw depth
  (lines 81-85), as the `float` that `use_point` and the bin receive;
* `rangeF u depth`: the same for a valid `float` sample;
* `angle_max`, `angle_min`, `angle_increment`: the values stored at lines 169-171. -/
structure PixelMath where
  valid : Nat → Bool
  validF : FVal → Bool
  quotient : Int → FVal
  range : Int → Nat → FVal
  rangeF : Int → FVal → FVal
  angle_max : FVal
  angle_min : FVal
  angle_increment : FVal

/-! ## Conversions between number types -/

/-- Truncation of a rational toward zero. -/
def truncQ (q : ℚ) : Int := Int.tdiv q.num (q.den : Int)

/-- Conversion of a floating-point value to `int`: the fractional part is discarded; the
behaviour is undefined (`none`) for NaN, for an infinity, and when the truncated value
does not fit 32 bits. -/
def toInt32 : FVal → Option Int
  | fin q => if -2147483648 ≤ truncQ q ∧ truncQ q ≤ 2147483647 then some (truncQ q) else none
  | _ => none

/-! ## The row-band projector (`convert<uint8_t>`, lines 44-95) -/

/-- Read of `depth_row[...]` at byte address `addr` of the frame buffer; a read outside
the buffer is undefined (`none`). -/
def readByte (data : List Nat) (addr : Int) : Option Nat :=
  if 0 ≤ addr then (data[addr.toNat]?).map (fun b => b % 256) else none

/-- Lines 69-72: the 16-bit depth rebuilt from the blue, green and red bytes of a pixel. -/
def pixelDepth (blue8 green8 red8 : Nat) : Nat :=
  let blue := (blue8 >>> 3) % 65536
  let green := (green8 >>> 2) % 65536
  let red := (red8 >>> 3) % 65536
  ((red <<< 11) ||| (green <<< 5) ||| blue) % 65536

/-- Lines 74 and 78-86: the candidate `r`; it starts as the raw depth and is recomputed
as a Euclidean distance when the depth is valid. -/
def candidate (pm : PixelMath) (u : Int) (depth : Nat) : FVal :=
  let r := fin (depth : ℚ)
  if pm.valid depth then pm.range u depth else r

/-- Line 76: the bin index, the quotient converted to `int`. -/
def binIndex (pm : PixelMath) (u : Int) : Option Int := toInt32 (pm.quotient u)

/-- Lines 88-92: merge of candidate `r` into `ranges[index]`.  An index outside the
vector is undefined behaviour (`none`): the source indexes without a check. -/
def mergeAt (ranges : List FVal) (index : Int) (r range_min range_max : FVal) :
    Option (List FVal) :=
  if 0 ≤ index then
    match ranges[index.toNat]? with
    | some old =>
      if use_point r old range_min range_max then some (ranges.set index.toNat r)
      else some ranges
    | none => none
  else none

/-- The body of the inner loop (lines 67-92) for column `u` of the row that starts at
byte address `rowBase`. -/
def convertPixel (pm : PixelMath) (data : List Nat) (rowBase : Int) (range_min range_max : FVal)
    (ranges : List FVal) (u : Int) : Option (List FVal) := do
  let byte_idx := 3 * u
  let b0 ← readByte data (rowBase + byte_idx)
  let b1 ← readByte data (rowBase + byte_idx + 1)
  let b2 ← readByte data (rowBase + byte_idx + 2)
  let depth := pixelDepth b0 b1 b2
  let r := candidate pm u depth
  let index ← binIndex pm u
  mergeAt ranges index r range_min range_max

/-- The inner loop (line 65): columns `0 .. width - 1` in order. -/
def convertRow (pm : PixelMath) (data : List Nat) (rowBase : Int) (width : Nat)
    (range_min range_max : FVal) (ranges : List FVal) : Option (List FVal) :=
  (List.range width).foldlM
    (fun rs (u : Nat) => convertPixel pm data rowBase range_min range_max rs (u : Int)) ranges

/-- Line 60: the first row of the band, `(int)(cam_model.cy() - scan_height / 2)`;
the quotient is an integer division. -/
def bandOffset (cy : ℚ) (scan_height : Int) : Int :=
  truncQ (cy - ((Int.tdiv scan_height 2 : Int) : ℚ))

/-- Embedding of `convert<uint8_t>`: rows `offset .. offset + scan_height_ - 1`, each
starting `row_step` bytes after the one before.  The result is the `ranges` vector of
the scan message; the other fields are not touched. -/
def convert (pm : PixelMath) (cfg : Config) (depth_msg : Image) (cam_model : CameraModel)
    (scan_msg : LaserScan) (scan_height : Int) : Option (List FVal) :=
  let row_step : Int := (depth_msg.step / 1 : Nat)
  let offset := bandOffset cam_model.cy scan_height
  (List.range cfg.scan_height_.toNat).foldlM
    (fun rs (k : Nat) => convertRow pm depth_msg.data ((offset + (k : Int)) * row_step)
      depth_msg.width scan_msg.range_min scan_msg.range_max rs)
    scan_msg.ranges

/-! ## The generic projector (`convert<T>` for 16UC1 and 32FC1 frames) -/

/-- Read of a typed sample; a read outside the buffer is undefined (`none`). -/
def readSample {α : Type} (samples : List α) (addr : Int) : Option α :=
  if 0 ≤ addr then samples[addr.toNat]? else none

/-- Integer floor of a floating-point quotient, undefined for NaN and the infinities. -/
def floorIndex : FVal → Option Int
  | fin q => some ⌊q⌋
  | _ => none

/-- Modelled from the spec: the per-pixel procedure of section 4.2 for one sample; the
template `convert<T>` that the 16UC1 and 32FC1 branches of `convert_msg` call is declared
in `DepthImageToLaserScan.h`, which is not part of the sources.  `raw` is the sample as a
value, `isValid` the trait's validity of it, `dist` the Euclidean distance that replaces
a valid sample.  The bin index is the integer floor of the quotient. -/
def genericPixel (pm : PixelMath) (raw : FVal) (isValid : Bool) (dist : FVal)
    (range_min range_max : FVal) (ranges : List FVal) (u : Int) : Option (List FVal) := do
  let r := if isValid then dist else raw
  let index ← floorIndex (pm.quotient u)
  mergeAt ranges index r range_min range_max

/-- Modelled from the spec: the row band of section 4.2 over typed samples (the absent
template `convert<T>`): rows `[cy - H/2, cy - H/2 + H)`, every column of each row, the
pixel handled by `step`. -/
def convertGeneric {α : Type} (samples : List α)
    (step : FVal → FVal → List FVal → Int → α → Option (List FVal))
    (row_step : Int) (cfg : Config) (depth_msg : Image) (cam_model : CameraModel)
    (scan_msg : LaserScan) (scan_height : Int) : Option (List FVal) :=
  let offset := bandOffset cam_model.cy scan_height
  (List.range cfg.scan_height_.toNat).foldlM
    (fun rs (k : Nat) => (List.range depth_msg.width).foldlM
      (fun rs2 (u : Nat) => do
        let s ← readSample samples ((offset + (k : Int)) * row_step + (u : Int))
        step scan_msg.range_min scan_msg.range_max rs2 (u : Int) s) rs)
    scan_msg.ranges

/-- Modelled from the spec: `convert<uint16_t>`, raw 16-bit samples. -/
def convert16 (pm : PixelMath) (cfg : Config) (depth_msg : Image) (cam_model : CameraModel)
    (scan_msg : LaserScan) (scan_height : Int) : Option (List FVal) :=
  convertGeneric depth_msg.samples16
    (fun lo hi rs u d =>
      genericPixel pm (fin ((d % 65536 : Nat) : ℚ)) (pm.valid (d % 65536))
        (pm.range u (d % 65536)) lo hi rs u)
    ((depth_msg.step / 2 : Nat) : Int) cfg depth_msg cam_model scan_msg scan_height

/-- Modelled from the spec: `convert<float>`, samples in metres. -/
def convertF (pm : PixelMath) (cfg : Config) (depth_msg : Image) (cam_model : CameraModel)
    (scan_msg : LaserScan) (scan_height : Int) : Option (List FVal) :=
  convertGeneric depth_msg.samplesF
    (fun lo hi rs u d => genericPixel pm d (pm.validF d) (pm.rangeF u d) lo hi rs u)
    ((depth_msg.step / 4 : Nat) : Int) cfg depth_msg cam_model scan_msg scan_height

/-! ## `convert_msg` (lines 142-208) -/

/-- The two failures of `convert_msg`, thrown as `std::runtime_error`, and undefined
behaviour of the projector (a read or a write outside a buffer, an undefined
conversion to `int`). -/
inductive ConvertError where
  | scanHeightTooLarge (scan_height : Int)
  | unsupportedEncoding (encoding : String)
  | undefinedBehaviour
  deriving DecidableEq, Repr

deriving instance DecidableEq for Except

/-- Line 178: the geometry check; `true` means the exception is thrown.  The left-hand
sides are integer divisions, the right-hand sides `double`. -/
def scanHeightTooLarge (scan_height_ : Int) (height : Nat) (cy : ℚ) : Bool :=
  decide (((Int.tdiv scan_height_ 2 : Int) : ℚ) > cy) ||
  decide (((Int.tdiv scan_height_ 2 : Int) : ℚ) > (height : ℚ) - cy)

/-- Lines 164-175 and 185-186: the scan message before the projector runs. -/
def initScan (pm : PixelMath) (cfg : Config) (depth_msg : Image) : LaserScan :=
  { frame_id := if cfg.output_frame_id_.length > 0 then cfg.output_frame_id_
                else depth_msg.frame_id
    angle_min := pm.angle_min
    angle_max := pm.angle_max
    angle_increment := pm.angle_increment
    time_increment := fin 0
    scan_time := cfg.scan_time_
    range_min := cfg.range_min_
    range_max := cfg.range_max_
    ranges := List.replicate depth_msg.width nan }

/-- Lift of a projector run into the result of `convert_msg`. -/
def finish (scan_msg : LaserScan) : Option (List FVal) → Except ConvertError LaserScan
  | some rs => .ok { scan_msg with ranges := rs }
  | none => .error .undefinedBehaviour

/-- Embedding of `DepthImageToLaserScan::convert_msg`. -/
def convert_msg (pm : PixelMath) (cfg : Config) (depth_msg : Image) (cam_model_ : CameraModel) :
    Except ConvertError LaserScan :=
  let scan_msg := initScan pm cfg depth_msg
  if scanHeightTooLarge cfg.scan_height_ depth_msg.height cam_model_.cy then
    .error (.scanHeightTooLarge cfg.scan_height_)
  else if depth_msg.encoding = "16UC1" then
    finish scan_msg (convert16 pm cfg depth_msg cam_model_ scan_msg cfg.scan_height_)
  else if depth_msg.encoding = "32FC1" then
    finish scan_msg (convertF pm cfg depth_msg cam_model_ scan_msg cfg.scan_height_)
  else if depth_msg.encoding = "bgr8" then
    finish scan_msg (convert pm cfg depth_msg cam_model_ scan_msg cfg.scan_height_)
  else
    .error (.unsupportedEncoding depth_msg.encoding)

/-! ## Concrete inputs used by the examples -/

/-- Modelled from the spec: the validity predicates of the numeric encoding trait
(`depth_traits.h` is not part of the sources): a 16-bit sample is a genuine reading unless
it is the no-return marker 0, a floating-point sample unless it is NaN or an infinity.
The remaining fields fix one outcome of the uninterpreted arithmetic: column `u` falls
exactly on bin `u`, and a valid depth `d` of the 16-bit path is seen at distance
`d / 1000` metres, a valid float sample at its own distance. -/
def exampleMath : PixelMath :=
  { valid := fun d => d != 0
    validF := fun d => isfinite d
    quotient := fun u => fin (u : ℚ)
    range := fun _ d => fin ((d : ℚ) / 1000)
    rangeF := fun _ d => d
    angle_max := fin 1
    angle_min := fin (-1)
    angle_increment := fin 1 }

/-- A configuration with range limits 0 and 10 and a band one row high. -/
def exampleConfig : Config :=
  { scan_time_ := fin 0
    range_min_ := fin 0
    range_max_ := fin 10
    scan_height_ := 1
    output_frame_id_ := "" }

/-- A camera whose principal point is the top-left pixel. -/
def exampleCamera : CameraModel := { cx := 0, cy := 0, fx := 1, fy := 1 }

/-- A 1x1 floating-point frame whose only sample is +Inf. -/
def infFrame : Image :=
  { frame_id := "camera", height := 1, width := 1, encoding := "32FC1", step := 4,
    data := [0, 0, 128, 127], samples16 := [], samplesF := [pinf] }

/-- A 2x1 packed-colour frame: the first pixel has all channels 0 (depth 0), the second
has red byte 8 (depth 2048) . -/
def bgrFrame : Image :=
  { frame_id := "camera", height := 1, width := 2, encoding := "bgr8", step := 6,
    data := [0, 0, 0, 0, 0, 8], samples16 := [], samplesF := [] }

/-- The scan that `convert_msg` returns for `bgrFrame`. -/
def bgrScan : LaserScan :=
  { frame_id := "camera", angle_min := fin (-1), angle_max := fin 1, angle_increment := fin 1,
    time_increment := fin 0, scan_time := fin 0, range_min := fin 0, range_max := fin 10,
    ranges := [fin 0, fin (2048 / 1000)] }

/-- A packed-colour frame one pixel wide and four rows high, every byte 8. -/
def tallFrame : Image :=
  { frame_id := "camera", height := 4, width := 1, encoding := "bgr8", step := 3,
    data := List.replicate 12 8, samples16 := [], samplesF := [] }

/-- A camera whose principal point is at row 2. -/
def tallCamera : CameraModel := { cx := 0, cy := 2, fx := 1, fy := 1 }

/-- The example configuration with a band of `h` rows. -/
def bandConfig (h : Int) : Config := { exampleConfig with scan_height_ := h }

/-- One outcome of the uninterpreted arithmetic in which the quotient of column `u` is
`u - 1/2`: column 0 has the negative quotient `-1/2`. -/
def halfMath : PixelMath := { exampleMath with quotient := fun u => fin ((u : ℚ) - 1 / 2) }

/-- The rows the outer loop visits (line 63): `offset`, ..., `offset + scan_height_ - 1`. -/
def bandRows (cy : ℚ) (scan_height : Int) : List Int :=
  (List.range scan_height.toNat).map (fun (k : Nat) => bandOffset cy scan_height + (k : Int))

/-- A packed-colour frame of one pixel, bytes 0, 0, 8. -/
def pixelFrame : Image :=
  { frame_id := "camera", height := 1, width := 1, encoding := "bgr8", step := 3,
    data := [0, 0, 8], samples16 := [], samplesF := [] }

/-- The arithmetic of a one-pixel-wide frame whose principal point is column 0 (the camera
`exampleCamera`): the left, centre and right rays coincide, so both angles are
`acos(1) = 0`, the increment is `0 / 0`, a NaN, and so is every quotient. -/
def degenerateMath : PixelMath :=
  { exampleMath with
    quotient := fun _ => nan
    angle_max := fin 0
    angle_min := fin 0
    angle_increment := nan }

/-- The accesses of the packed-colour projector are in bounds: every byte it reads lies
inside the frame buffer, and the bin index of every column is a position of the range
vector. -/
def BgrInBounds (pm : PixelMath) (cfg : Config) (depth_msg : Image) (cam_model : CameraModel) :
    Prop :=
  (∀ v ∈ bandRows cam_model.cy cfg.scan_height_, ∀ u : Nat, u < depth_msg.width →
    ∀ j : Nat, j < 3 →
      0 ≤ v * ((depth_msg.step / 1 : Nat) : Int) + 3 * (u : Int) + (j : Int) ∧
      v * ((depth_msg.step / 1 : Nat) : Int) + 3 * (u : Int) + (j : Int)
        < (depth_msg.data.length : Int)) ∧
  (∀ u : Nat, u < depth_msg.width →
    ∃ i ∈ binIndex pm (u : Int), 0 ≤ i ∧ i < (depth_msg.width : Int))

/-- The accesses of the generic projector are in bounds, for a sample buffer of `len`
samples and rows `row_step` samples apart. -/
def GenericInBounds (pm : PixelMath) (cfg : Config) (depth_msg : Image) (cam_model : CameraModel)
    (len : Nat) (row_step : Int) : Prop :=
  (∀ v ∈ bandRows cam_model.cy cfg.scan_height_, ∀ u : Nat, u < depth_msg.width →
      0 ≤ v * row_step + (u : Int) ∧ v * row_step + (u : Int) < (len : Int)) ∧
  (∀ u : Nat, u < depth_msg.width →
    ∃ i ∈ floorIndex (pm.quotient (u : Int)), 0 ≤ i ∧ i < (depth_msg.width : Int))

instance (pm : PixelMath) (cfg : Config) (depth_msg : Image) (cam_model : CameraModel) :
    Decidable (BgrInBounds pm cfg depth_msg cam_model) := by
  unfold BgrInBounds; infer_instance

instance (pm : PixelMath) (cfg : Config) (depth_msg : Image) (cam_model : CameraModel)
    (len : Nat) (row_step : Int) :
    Decidable (GenericInBounds pm cfg depth_msg cam_model len row_step) := by
  unfold GenericInBounds; infer_instance

/-- The accesses of the projector that `convert_msg` selects for the frame are in bounds. -/
def InBounds (pm : PixelMath) (cfg : Config) (depth_msg : Image) (cam_model : CameraModel) :
    Prop :=
  if depth_msg.encoding = "16UC1" then
    GenericInBounds pm cfg depth_msg cam_model depth_msg.samples16.length
      ((depth_msg.step / 2 : Nat) : Int)
  else if depth_msg.encoding = "32FC1" then
    GenericInBounds pm cfg depth_msg cam_model depth_msg.samplesF.length
      ((depth_msg.step / 4 : Nat) : Int)
  else BgrInBounds pm cfg depth_msg cam_model

instance (pm : PixelMath) (cfg : Config) (depth_msg : Image) (cam_model : CameraModel) :
    Decidable (InBounds pm cfg depth_msg cam_model) := by
  unfold InBounds; infer_instance

/-- The result is one of the two exceptions that `convert_msg` throws. -/
def Throws : Except ConvertError LaserScan → Prop
  | .error (.scanHeightTooLarge _) => True
  | .error (.unsupportedEncoding _) => True
  | _ => False

/-- The encoding is one of the three that `convert_msg` dispatches on. -/
def knownEncoding (encoding : String) : Bool :=
  encoding = "16UC1" || encoding = "32FC1" || encoding = "bgr8"

/-! ## The band as a sequence of pixels -/

/-- The merges of a sequence of pixels into the range vector, in order; a pixel is its bin
index and its candidate (lines 89-92 over the pixels of the band). -/
def mergeBand (ps : List (Int × FVal)) (range_min range_max : FVal) (ranges : List FVal) :
    Option (List FVal) :=
  ps.foldlM (fun rs p => mergeAt rs p.1 p.2 range_min range_max) ranges

/-- Lines 67-86 for column `u` of the row at byte address `rowBase`: the bin index and the
candidate of the pixel, before the merge. -/
def pixelEvent (pm : PixelMath) (data : List Nat) (rowBase : Int) (u : Int) :
    Option (Int × FVal) := do
  let byte_idx := 3 * u
  let b0 ← readByte data (rowBase + byte_idx)
  let b1 ← readByte data (rowBase + byte_idx + 1)
  let b2 ← readByte data (rowBase + byte_idx + 2)
  let depth := pixelDepth b0 b1 b2
  let r := candidate pm u depth
  let index ← binIndex pm u
  pure (index, r)

/-- The pixel positions of the band in the order of the two loops: row by row, each row
from column 0 up. -/
def bandPositions (cy : ℚ) (scan_height : Int) (width : Nat) : List (Int × Nat) :=
  (bandRows cy scan_height).flatMap (fun v => (List.range width).map (fun (u : Nat) => (v, u)))

/-- The pixels computed by `ev` at the positions of a list, in order; undefined as soon
as one of them is. -/
def eventsOf {α : Type} (ev : α → Option (Int × FVal)) : List α → Option (List (Int × FVal))
  | [] => some []
  | a :: l =>
    match ev a, eventsOf ev l with
    | some p, some ps => some (p :: ps)
    | _, _ => none

/-- The pixels of the band of a packed-colour frame, in loop order. -/
def bandPixels (pm : PixelMath) (cfg : Config) (depth_msg : Image) (cam_model : CameraModel) :
    Option (List (Int × FVal)) :=
  eventsOf
    (fun pos : Int × Nat =>
      pixelEvent pm depth_msg.data (pos.1 * ((depth_msg.step / 1 : Nat) : Int)) (pos.2 : Int))
    (bandPositions cam_model.cy cfg.scan_height_ depth_msg.width)

/-- The finite candidates among the pixels `ps` that are mapped to bin `i` and lie within
the range limits. -/
def binCandidates (ps : List (Int × FVal)) (range_min range_max : FVal) (i : Nat) : List ℚ :=
  ps.filterMap (fun p =>
    match p.2 with
    | fin c =>
      if p.1 = (i : Int) ∧ FVal.le range_min (fin c) = true ∧ FVal.le (fin c) range_max = true
      then some c else none
    | _ => none)

/-- The bin value `v` is the minimum of the candidates `cs`, or NaN when there is none. -/
def HoldsMin (v : FVal) (cs : List ℚ) : Prop :=
  (cs = [] ∧ v = nan) ∨ (∃ m ∈ cs, v = fin m ∧ ∀ c ∈ cs, m ≤ c)

/-- Four pixels for a scan of two bins: 3, 2 and 5 go to bin 0, 20 goes to bin 1. -/
def examplePixels : List (Int × FVal) := [(0, fin 3), (1, fin 20), (0, fin 2), (0, fin 5)]

/-! ## The field-of-view solver and the pixel geometry in exact arithmetic

Square root, arc cosine and arc tangent are real functions; the definitions below are
relations between the rational inputs and the real result, with every operation exact. -/

/-- A 3D direction (`cv::Point3d`). -/
structure Point3d where
  x : ℚ
  y : ℚ
  z : ℚ
  deriving DecidableEq, Repr

/-- Line 108: the dot product of two rays. -/
def dotProduct (ray1 ray2 : Point3d) : ℚ :=
  ray1.x * ray2.x + ray1.y * ray2.y + ray1.z * ray2.z

/-- Embedding of `magnitude_of_ray` (lines 103-105): `m` is the magnitude of `ray`. -/
def magnitude_of_ray (ray : Point3d) (m : ℝ) : Prop :=
  m = Real.sqrt ((ray.x : ℝ) ^ 2 + (ray.y : ℝ) ^ 2 + (ray.z : ℝ) ^ 2)

/-- Embedding of `angle_between_rays` (lines 107-112): `theta` is the angle between the
two rays. -/
def angle_between_rays (ray1 ray2 : Point3d) (theta : ℝ) : Prop :=
  ∃ magnitude1 magnitude2 : ℝ,
    magnitude_of_ray ray1 magnitude1 ∧ magnitude_of_ray ray2 magnitude2 ∧
    theta = Real.arccos ((dotProduct ray1 ray2 : ℝ) / (magnitude1 * magnitude2))

/-- Lines 160-161: the two angles of the scan from the left, centre and right rays. -/
def FovSolved (left_ray center_ray right_ray : Point3d) (angle_max angle_min : ℝ) : Prop :=
  ∃ a b : ℝ, angle_between_rays left_ray center_ray a ∧
    angle_between_rays center_ray right_ray b ∧ angle_max = a ∧ angle_min = -b

/-- Modelled from the spec: the camera model's projection function (rectified pixel to 3D
ray) belongs to a collaborator that is not part of the sources. For an undistorted
pinhole camera the ray through pixel `(u, v)` is `((u - cx) / fx, (v - cy) / fy, 1)`, and
rectification leaves the pixel where it is. -/
def pinholeRay (cam : CameraModel) (u v : ℚ) : Point3d :=
  { x := (u - cam.cx) / cam.fx, y := (v - cam.cy) / cam.fy, z := 1 }

/-- Line 152: the column of the right pixel, `depth_msg->width - 1` in 32-bit unsigned
arithmetic. -/
def rightColumn (width : Nat) : Nat := (width + 4294967295) % 4294967296

/-- Lines 148-161 for an undistorted pinhole camera: the angles of the scan. -/
def fovAngles (cam : CameraModel) (width : Nat) (angle_max angle_min : ℝ) : Prop :=
  FovSolved (pinholeRay cam 0 cam.cy) (pinholeRay cam cam.cx cam.cy)
    (pinholeRay cam (rightColumn width : ℚ) cam.cy) angle_max angle_min

/-- Lines 75-76 and 171 in exact arithmetic: `q` is the quotient
`(th - angle_min) / angle_increment` of column `u`, with
`angle_increment = (angle_max - angle_min) / (width - 1)` and
`th = -atan2((u - cx) * s / fx, s)`, which for a positive unit scale `s` is
`-arctan((u - cx) / fx)`. -/
def idealQuotient (cam : CameraModel) (width : Nat) (u : Int) (q : ℝ) : Prop :=
  ∃ angle_max angle_min : ℝ, fovAngles cam width angle_max angle_min ∧
    q = (-Real.arctan ((((u : ℚ) - cam.cx) / cam.fx : ℚ) : ℝ) - angle_min) /
      ((angle_max - angle_min) / ((rightColumn width : ℚ) : ℝ))

/-- Section 4.2, step 3, in exact arithmetic with unit scale 1: `r` is the distance of
the point seen in column `u` at depth `depth`, with `x = (u - cx) * depth / fx` and
`z = depth`. -/
def idealRange (cam : CameraModel) (u : Int) (depth : ℚ) (r : ℝ) : Prop :=
  r = Real.sqrt ((((((u : ℚ) - cam.cx) * depth / cam.fx : ℚ) : ℝ)) ^ 2 + ((depth : ℚ) : ℝ) ^ 2)

/-! ## The end-to-end scenario -/

/-- The camera of the scenario: cx = 1.5, cy = 1, fx = fy = 2. -/
def scenarioCamera : CameraModel := { cx := 3 / 2, cy := 1, fx := 2, fy := 2 }

/-- The frame of the scenario: 4 columns, 3 rows, every row 1, 2, 3, 4 metres. -/
def scenarioFrame : Image :=
  { frame_id := "camera", height := 3, width := 4, encoding := "32FC1", step := 16,
    data := [], samples16 := [],
    samplesF := [fin 1, fin 2, fin 3, fin 4, fin 1, fin 2, fin 3, fin 4,
      fin 1, fin 2, fin 3, fin 4] }

/-- The arithmetic of the scenario, each value the exact one rounded to four decimals:
the quotients of columns 0 to 3 are 3, 2.0711, 0.9289 and 0, the distances 1.25, 2.0616,
3.0923 and 5, the angles 0.6435 and -0.6435, the increment 0.4290. -/
def scenarioMath : PixelMath :=
  { valid := fun d => d != 0
    validF := fun d => isfinite d
    quotient := fun u =>
      if u = 0 then fin 3 else if u = 1 then fin (20711 / 10000)
      else if u = 2 then fin (9289 / 10000) else fin 0
    range := fun _ d => fin ((d : ℚ) / 1000)
    rangeF := fun u _ =>
      if u = 0 then fin (5 / 4) else if u = 1 then fin (20616 / 10000)
      else if u = 2 then fin (30923 / 10000) else fin 5
    angle_max := fin (6435 / 10000)
    angle_min := fin (-6435 / 10000)
    angle_increment := fin (4290 / 10000) }

/-- The scan of the scenario. -/
def scenarioScan : LaserScan :=
  { frame_id := "camera", angle_min := fin (-6435 / 10000), angle_max := fin (6435 / 10000),
    angle_increment := fin (4290 / 10000), time_increment := fin 0, scan_time := fin 0,
    range_min := fin 0, range_max := fin 10,
    ranges := [fin (30923 / 10000), nan, fin (20616 / 10000), fin (5 / 4)] }

/-! ## Theorems: the selection policy -/

/-- The classifier `isfinite` agrees with finiteness as the specification words it. -/
theorem isfinite_iff (v : FVal) : isfinite v = true ↔ IsFiniteVal v := by
  cases v <;> simp [isfinite, IsFiniteVal]

/-- IEEE `<=` is the order of the extended line on values that are not NaN. -/
theorem le_iff (a b : FVal) : FVal.le a b = true ↔ ExtLE a b := by
  cases a <;> cases b <;> simp [FVal.le, ExtLE, toExt]

/-- IEEE `<` is the strict order of the extended line on values that are not NaN. -/
theorem lt_iff (a b : FVal) : FVal.lt a b = true ↔ ExtLT a b := by
  cases a <;> cases b <;> simp [FVal.lt, ExtLT, toExt]
  exact WithBot.coe_lt_coe.2 (WithTop.coe_lt_top _)

/-- Membership in the range interval is the range check of line 128. -/
theorem within_iff (v lo hi : FVal) :
    Within v lo hi ↔ (FVal.le lo v && FVal.le v hi) = true := by
  simp [Within, le_iff]

/-- C1: for all four arguments (finite, plus or minus infinity, or NaN), the answer of
`use_point` is the one the four-case policy prescribes, and it is the only answer that
policy allows: (1) neither value finite: replace exactly when new is not NaN; (2) else new
not within the range limits: do not replace; (3) else old not finite: replace; (4) else
replace exactly when new is less than old. -/
theorem use_point_matches_policy (new old range_min range_max : FVal) (res : Bool) :
    UsePointSpec new old range_min range_max res ↔
      res = use_point new old range_min range_max := by
  unfold UsePointSpec
  rw [within_iff, ← isfinite_iff, ← isfinite_iff, ← lt_iff]
  unfold use_point
  cases hn : isfinite new <;> cases ho : isfinite old <;>
    cases hr : (FVal.le range_min new && FVal.le new range_max) <;>
    cases hl : FVal.lt new old <;> cases res <;> cases new <;>
    simp_all [isfinite, isnan]

/-- C2: the six listed results of `use_point` with range limits 0 and 10:
(+Inf over NaN) true, (NaN over +Inf) false, (3 over NaN) true, (3 over 5) true,
(7 over 5) false, (20 over NaN) false. -/
theorem use_point_six_examples :
    use_point pinf nan (fin 0) (fin 10) = true ∧
    use_point nan pinf (fin 0) (fin 10) = false ∧
    use_point (fin 3) nan (fin 0) (fin 10) = true ∧
    use_point (fin 3) (fin 5) (fin 0) (fin 10) = true ∧
    use_point (fin 7) (fin 5) (fin 0) (fin 10) = false ∧
    use_point (fin 20) nan (fin 0) (fin 10) = false := by
  decide

/-- C3: a NaN candidate never replaces anything, whatever the old value and the range
limits (non-finite limits included). -/
theorem use_point_nan_new (old_value range_min range_max : FVal) :
    use_point nan old_value range_min range_max = false := by
  cases old_value <;> cases range_min <;> simp [use_point, isfinite, isnan, FVal.le]

/-- C4 (counterexample): with range limits 0 and 10 a +Inf candidate replaces an old -Inf
and an old +Inf, and a -Inf candidate replaces an old +Inf: the answer is true, not false. -/
theorem use_point_inf_over_inf_counterexample :
    use_point pinf ninf (fin 0) (fin 10) = true ∧
    use_point pinf pinf (fin 0) (fin 10) = true ∧
    use_point ninf pinf (fin 0) (fin 10) = true ∧
    ¬ (use_point pinf ninf (fin 0) (fin 10) = false) := by
  decide

/-- C4 (amended): for all range limits, a candidate that is +Inf or -Inf replaces an old
value that is NaN, +Inf or -Inf: a signed infinity replaces a NaN and also another
infinity of either sign. -/
theorem use_point_inf_over_nonfinite (new_value old_value range_min range_max : FVal)
    (hnew : new_value = pinf ∨ new_value = ninf)
    (hold : old_value = nan ∨ old_value = pinf ∨ old_value = ninf) :
    use_point new_value old_value range_min range_max = true := by
  rcases hnew with rfl | rfl <;> rcases hold with rfl | rfl | rfl <;>
    simp [use_point, isfinite, isnan]

/-- The amended C4 at new = -Inf, old = +Inf with range limits 0 and 10. -/
theorem use_point_inf_over_nonfinite_witness :
    (ninf = pinf ∨ ninf = ninf) ∧ (pinf = nan ∨ pinf = pinf ∨ pinf = ninf) ∧
      use_point ninf pinf (fin 0) (fin 10) = true :=
  ⟨Or.inr rfl, Or.inr (Or.inl rfl),
    use_point_inf_over_nonfinite ninf pinf (fin 0) (fin 10) (Or.inr rfl) (Or.inr (Or.inl rfl))⟩

/-- C5 (counterexample): with range_min = -Inf and range_max = 10, a -Inf candidate passes
the range check and replaces the finite old value 5. -/
theorem use_point_ninf_over_finite_counterexample :
    isfinite (fin 5) = true ∧ use_point ninf (fin 5) ninf (fin 10) = true := by
  decide

/-- C5 (amended): a signed infinity does not replace a finite old value, for all range
limits except the one combination that lets -Inf through the range check
(new = -Inf, range_min = -Inf, range_max not NaN). -/
theorem use_point_inf_over_finite (new_value old_value range_min range_max : FVal)
    (hnew : new_value = pinf ∨ new_value = ninf)
    (hold : isfinite old_value = true)
    (hgate : ¬ (new_value = ninf ∧ range_min = ninf ∧ range_max ≠ nan)) :
    use_point new_value old_value range_min range_max = false := by
  rcases hnew with rfl | rfl <;> cases old_value <;> cases range_min <;> cases range_max <;>
    simp_all [use_point, isfinite, isnan, FVal.le, FVal.lt]

/-- The amended C5 at new = -Inf, old = 5 with range limits 0 and 10. -/
theorem use_point_inf_over_finite_witness :
    (ninf = pinf ∨ ninf = ninf) ∧ isfinite (fin 5) = true ∧
      ¬ (ninf = ninf ∧ fin 0 = ninf ∧ fin 10 ≠ nan) ∧
      use_point ninf (fin 5) (fin 0) (fin 10) = false :=
  ⟨Or.inr rfl, rfl, by simp,
    use_point_inf_over_finite ninf (fin 5) (fin 0) (fin 10) (Or.inr rfl) rfl (by simp)⟩

/-- C6: the merge step is idempotent: merging the same candidate a second time leaves
the bin as the first merge left it, for every old value, candidate and range limits. -/
theorem merge_idempotent (old c range_min range_max : FVal) :
    merge (merge old c range_min range_max) c range_min range_max =
      merge old c range_min range_max := by
  unfold merge
  by_cases h : use_point c old range_min range_max = true
  · simp [h]
  · simp [h]

/-- Over a finite old value only a smaller candidate is accepted. -/
theorem use_point_finite_old (new_value old_value range_min range_max : FVal)
    (hold : isfinite old_value = true)
    (h : use_point new_value old_value range_min range_max = true) :
    FVal.lt new_value old_value = true := by
  unfold use_point at h
  simp only [hold] at h
  cases hr : (FVal.le range_min new_value && FVal.le new_value range_max) <;>
    simp_all

/-- IEEE `<` is transitive. -/
theorem lt_trans_val (a b c : FVal) (hab : FVal.lt a b = true) (hbc : FVal.lt b c = true) :
    FVal.lt a c = true := by
  cases a <;> cases b <;> cases c <;> simp_all [FVal.lt]
  exact lt_trans hab hbc

/-- One merge into a finite bin, when the range limits keep -Inf out: the bin is unchanged
or holds a finite, smaller value. -/
theorem merge_finite_step (old c range_min range_max : FVal)
    (hold : isfinite old = true) (hgate : ¬ (range_min = ninf ∧ range_max ≠ nan)) :
    merge old c range_min range_max = old ∨
      (isfinite (merge old c range_min range_max) = true ∧
        FVal.lt (merge old c range_min range_max) old = true) := by
  unfold merge
  by_cases h : use_point c old range_min range_max = true
  · right
    have hlt := use_point_finite_old c old range_min range_max hold h
    simp only [h, if_true]
    refine ⟨?_, hlt⟩
    cases c <;> cases old <;> cases range_min <;> cases range_max <;>
      simp_all [use_point, isfinite, isnan, FVal.le, FVal.lt]
  · left
    simp [h]

/-- Any number of merges into a finite bin, when the range limits keep -Inf out. -/
theorem mergeSeq_finite (cs : List FVal) (range_min range_max : FVal)
    (hgate : ¬ (range_min = ninf ∧ range_max ≠ nan)) :
    ∀ old : FVal, isfinite old = true →
      mergeSeq old cs range_min range_max = old ∨
        (isfinite (mergeSeq old cs range_min range_max) = true ∧
          FVal.lt (mergeSeq old cs range_min range_max) old = true) := by
  induction cs with
  | nil => intro old _; left; rfl
  | cons c cs ih =>
    intro old hold
    have hstep : mergeSeq old (c :: cs) range_min range_max =
        mergeSeq (merge old c range_min range_max) cs range_min range_max := rfl
    rw [hstep]
    rcases merge_finite_step old c range_min range_max hold hgate with heq | ⟨hfin, hlt⟩
    · rw [heq]; exact ih old hold
    · rcases ih _ hfin with heq2 | ⟨hfin2, hlt2⟩
      · rw [heq2]; exact Or.inr ⟨hfin, hlt⟩
      · exact Or.inr ⟨hfin2, lt_trans_val _ _ _ hlt2 hlt⟩

/-- C7 (counterexample): with range_min = -Inf and range_max = 10, a bin that holds 5 and
is offered -Inf and then 7 ends holding 7, which is not smaller than 5; offered -Inf and
then +Inf it ends holding +Inf. -/
theorem merge_regress_counterexample :
    isfinite (fin 5) = true ∧
    mergeSeq (fin 5) [ninf, fin 7] ninf (fin 10) = fin 7 ∧
    FVal.lt (fin 7) (fin 5) = false ∧
    mergeSeq (fin 5) [ninf, pinf] ninf (fin 10) = pinf ∧
    FVal.lt pinf (fin 5) = false := by
  decide

/-- C7 (amended): for every finite old value and all range limits, `use_point` accepts a
candidate only if it is less than the old value; and unless the range limits let -Inf
through (range_min = -Inf with range_max not NaN), a bin that holds a finite value holds,
after any further candidates, either that same value or a finite, strictly smaller one. -/
theorem merge_never_regresses (new_value old_value range_min range_max : FVal)
    (hold : isfinite old_value = true) :
    (use_point new_value old_value range_min range_max = true →
      FVal.lt new_value old_value = true) ∧
    (¬ (range_min = ninf ∧ range_max ≠ nan) →
      ∀ cs : List FVal,
        mergeSeq old_value cs range_min range_max = old_value ∨
          (isfinite (mergeSeq old_value cs range_min range_max) = true ∧
            FVal.lt (mergeSeq old_value cs range_min range_max) old_value = true)) :=
  ⟨use_point_finite_old new_value old_value range_min range_max hold,
    fun hgate cs => mergeSeq_finite cs range_min range_max hgate old_value hold⟩

/-- The amended C7 at old = 5: candidate 3, then the candidates 7, 3, +Inf, 4 in order,
with range limits 0 and 10. -/
theorem merge_never_regresses_witness :
    isfinite (fin 5) = true ∧
    (use_point (fin 3) (fin 5) (fin 0) (fin 10) = true → FVal.lt (fin 3) (fin 5) = true) ∧
    (mergeSeq (fin 5) [fin 7, fin 3, pinf, fin 4] (fin 0) (fin 10) = fin 5 ∨
      (isfinite (mergeSeq (fin 5) [fin 7, fin 3, pinf, fin 4] (fin 0) (fin 10)) = true ∧
        FVal.lt (mergeSeq (fin 5) [fin 7, fin 3, pinf, fin 4] (fin 0) (fin 10)) (fin 5)
          = true)) :=
  ⟨rfl, (merge_never_regresses (fin 3) (fin 5) (fin 0) (fin 10) rfl).1,
    (merge_never_regresses (fin 3) (fin 5) (fin 0) (fin 10) rfl).2 (by simp)
      [fin 7, fin 3, pinf, fin 4]⟩

/-! ## Theorems: the row-band projector -/

/-- An invariant of the accumulator is kept by a fold in `Option` when every step keeps it. -/
theorem foldlM_option_inv {α β : Type} (P : β → Prop) (f : β → α → Option β)
    (hf : ∀ b a b', P b → f b a = some b' → P b') :
    ∀ (l : List α) (b b' : β), P b → l.foldlM f b = some b' → P b' := by
  intro l
  induction l with
  | nil =>
    intro b b' hb h
    simp only [List.foldlM_nil] at h
    cases h
    exact hb
  | cons a l ih =>
    intro b b' hb h
    rw [List.foldlM_cons] at h
    cases hfa : f b a with
    | none => rw [hfa] at h; cases h
    | some b1 =>
      rw [hfa] at h
      exact ih b1 b' (hf b a b1 hb hfa) h

/-- An accepted candidate is not finite or lies within the range limits. -/
theorem use_point_accepts (r old lo hi : FVal) (h : use_point r old lo hi = true) :
    r = nan ∨ r = pinf ∨ r = ninf ∨ (FVal.le lo r = true ∧ FVal.le r hi = true) := by
  cases r <;> cases old <;>
    simp_all [use_point, isfinite, isnan]

/-- The merge step keeps a property of all bins that every accepted candidate has. -/
theorem mergeAt_inv (P : FVal → Prop) (lo hi : FVal)
    (hP : ∀ r old, use_point r old lo hi = true → P r)
    (ranges ranges' : List FVal) (index : Int) (r : FVal)
    (hall : ∀ v ∈ ranges, P v) (h : mergeAt ranges index r lo hi = some ranges') :
    ∀ v ∈ ranges', P v := by
  unfold mergeAt at h
  split at h
  · split at h
    · rename_i old _
      split at h
      · rename_i hu
        cases h
        intro v hv
        rcases List.mem_or_eq_of_mem_set hv with hv | hv
        · exact hall v hv
        · rw [hv]; exact hP r old hu
      · cases h; exact hall
    · cases h
  · cases h

/-- The pixel step changes the range vector only through the merge step. -/
theorem convertPixel_inv (Q : List FVal → Prop) (lo hi : FVal)
    (hQ : ∀ rs index r rs', Q rs → mergeAt rs index r lo hi = some rs' → Q rs')
    (pm : PixelMath) (data : List Nat) (rowBase : Int) (rs rs' : List FVal) (u : Int)
    (hrs : Q rs) (h : convertPixel pm data rowBase lo hi rs u = some rs') : Q rs' := by
  simp only [convertPixel, bind, Option.bind_eq_some] at h
  obtain ⟨b0, _, b1, _, b2, _, index, _, hm⟩ := h
  exact hQ _ _ _ _ hrs hm

/-- The inner loop changes the range vector only through the merge step. -/
theorem convertRow_inv (Q : List FVal → Prop) (lo hi : FVal)
    (hQ : ∀ rs index r rs', Q rs → mergeAt rs index r lo hi = some rs' → Q rs')
    (pm : PixelMath) (data : List Nat) (rowBase : Int) (width : Nat) (rs rs' : List FVal)
    (hrs : Q rs) (h : convertRow pm data rowBase width lo hi rs = some rs') : Q rs' :=
  foldlM_option_inv Q (fun rs (u : Nat) => convertPixel pm data rowBase lo hi rs (u : Int))
    (fun b a b' hb hstep => convertPixel_inv Q lo hi hQ pm data rowBase b b' (a : Int) hb hstep)
    (List.range width) rs rs' hrs h

/-- The packed-colour projector changes the range vector only through the merge step. -/
theorem convert_inv (Q : List FVal → Prop) (pm : PixelMath) (cfg : Config) (depth_msg : Image)
    (cam_model : CameraModel) (scan_msg : LaserScan) (scan_height : Int)
    (hQ : ∀ rs index r rs', Q rs →
      mergeAt rs index r scan_msg.range_min scan_msg.range_max = some rs' → Q rs')
    (rs' : List FVal) (hrs : Q scan_msg.ranges)
    (h : convert pm cfg depth_msg cam_model scan_msg scan_height = some rs') : Q rs' :=
  foldlM_option_inv Q _
    (fun b _ b' hb hstep => convertRow_inv Q _ _ hQ pm _ _ _ b b' hb hstep)
    _ scan_msg.ranges rs' hrs h

/-- The generic pixel step changes the range vector only through the merge step. -/
theorem genericPixel_inv (Q : List FVal → Prop) (lo hi : FVal)
    (hQ : ∀ rs index r rs', Q rs → mergeAt rs index r lo hi = some rs' → Q rs')
    (pm : PixelMath) (raw : FVal) (isValid : Bool) (dist : FVal) (rs rs' : List FVal) (u : Int)
    (hrs : Q rs) (h : genericPixel pm raw isValid dist lo hi rs u = some rs') : Q rs' := by
  simp only [genericPixel, bind, Option.bind_eq_some] at h
  obtain ⟨index, _, hm⟩ := h
  exact hQ _ _ _ _ hrs hm

/-- The generic projector changes the range vector only through its pixel step. -/
theorem convertGeneric_inv {α : Type} (Q : List FVal → Prop) (samples : List α)
    (step : FVal → FVal → List FVal → Int → α → Option (List FVal))
    (row_step : Int) (cfg : Config) (depth_msg : Image)
    (cam_model : CameraModel) (scan_msg : LaserScan) (scan_height : Int)
    (hstep : ∀ rs u a rs', Q rs →
      step scan_msg.range_min scan_msg.range_max rs u a = some rs' → Q rs')
    (rs' : List FVal) (hrs : Q scan_msg.ranges)
    (h : convertGeneric samples step row_step cfg depth_msg cam_model scan_msg scan_height
      = some rs') : Q rs' := by
  refine foldlM_option_inv Q _ ?_ _ scan_msg.ranges rs' hrs h
  intro b k b' hb hrow
  refine foldlM_option_inv Q _ ?_ _ b b' hb hrow
  intro c u c' hc hpix
  simp only [bind, Option.bind_eq_some] at hpix
  obtain ⟨a, _, ha⟩ := hpix
  exact hstep _ _ _ _ hc ha

/-- Every successful run of `convert_msg` keeps a property of the range vector that
holds of the NaN-filled vector and that every merge keeps. -/
theorem convert_msg_inv (Q : List FVal → Prop) (pm : PixelMath) (cfg : Config)
    (depth_msg : Image) (cam_model_ : CameraModel) (scan : LaserScan)
    (hQ : ∀ rs index r rs', Q rs →
      mergeAt rs index r cfg.range_min_ cfg.range_max_ = some rs' → Q rs')
    (hinit : Q (List.replicate depth_msg.width nan))
    (h : convert_msg pm cfg depth_msg cam_model_ = .ok scan) :
    Q scan.ranges ∧ scan.range_min = cfg.range_min_ ∧ scan.range_max = cfg.range_max_ := by
  have key : ∀ o : Option (List FVal), (∀ rs, o = some rs → Q rs) →
      finish (initScan pm cfg depth_msg) o = .ok scan →
      Q scan.ranges ∧ scan.range_min = cfg.range_min_ ∧ scan.range_max = cfg.range_max_ := by
    intro o ho hfin
    cases o with
    | none => simp [finish] at hfin
    | some rs =>
      simp only [finish, Except.ok.injEq] at hfin
      subst hfin
      exact ⟨ho rs rfl, rfl, rfl⟩
  unfold convert_msg at h
  simp only at h
  split at h
  · cases h
  · split at h
    · refine key _ (fun rs hrs => ?_) h
      refine convertGeneric_inv Q _ _ _ cfg depth_msg cam_model_ _ _ ?_ rs hinit hrs
      intro b u a b' hb hs
      exact genericPixel_inv Q _ _ hQ pm _ _ _ b b' u hb hs
    · split at h
      · refine key _ (fun rs hrs => ?_) h
        refine convertGeneric_inv Q _ _ _ cfg depth_msg cam_model_ _ _ ?_ rs hinit hrs
        intro b u a b' hb hs
        exact genericPixel_inv Q _ _ hQ pm _ _ _ b b' u hb hs
      · split at h
        · refine key _ (fun rs hrs => ?_) h
          exact convert_inv Q pm cfg depth_msg cam_model_ _ _ hQ rs hinit hrs
        · cases h

/-- C8 (counterexample): merging the candidate +Inf into a NaN bin with range limits 0 and
10 writes +Inf, and the conversion of a 1x1 floating-point frame whose sample is +Inf
returns the scan [+Inf]: the bin is not NaN and not within [0, 10]. -/
theorem bin_outside_range_counterexample :
    mergeAt [nan] 0 pinf (fin 0) (fin 10) = some [pinf] ∧
    (convert_msg exampleMath exampleConfig infFrame exampleCamera).toOption.map
      (fun scan => scan.ranges) = some [pinf] ∧
    pinf ≠ nan ∧ ¬ (FVal.le (fin 0) pinf = true ∧ FVal.le pinf (fin 10) = true) := by
  decide!

/-- C8 (amended): after every successful conversion each output bin holds NaN, a signed
infinity, or a value v with range_min <= v <= range_max; and whatever the merge step
writes is a signed infinity or within the range limits, so a finite value outside
[range_min, range_max] is never written to a bin. -/
theorem convert_msg_bins_in_range (pm : PixelMath) (cfg : Config) (depth_msg : Image)
    (cam_model_ : CameraModel) (scan : LaserScan)
    (h : convert_msg pm cfg depth_msg cam_model_ = .ok scan) :
    (∀ v ∈ scan.ranges, v = nan ∨ v = pinf ∨ v = ninf ∨
      (FVal.le scan.range_min v = true ∧ FVal.le v scan.range_max = true)) ∧
    (∀ r old, use_point r old scan.range_min scan.range_max = true →
      r = pinf ∨ r = ninf ∨
        (FVal.le scan.range_min r = true ∧ FVal.le r scan.range_max = true)) := by
  have hinv := convert_msg_inv
    (fun rs => ∀ v ∈ rs, v = nan ∨ v = pinf ∨ v = ninf ∨
      (FVal.le cfg.range_min_ v = true ∧ FVal.le v cfg.range_max_ = true))
    pm cfg depth_msg cam_model_ scan
    (fun rs index r rs' hrs hm =>
      mergeAt_inv _ _ _ (fun r old hu => use_point_accepts r old _ _ hu) rs rs' index r hrs hm)
    (fun v hv => Or.inl (List.eq_of_mem_replicate hv)) h
  obtain ⟨hall, hmin, hmax⟩ := hinv
  rw [hmin, hmax]
  refine ⟨hall, fun r old hu => ?_⟩
  rcases use_point_accepts r old _ _ hu with h1 | h1 | h1 | h1
  · subst h1
    cases old <;> simp [use_point, isfinite, isnan, FVal.le] at hu
  · exact Or.inl h1
  · exact Or.inr (Or.inl h1)
  · exact Or.inr (Or.inr h1)

/-- The amended C8 on the conversion of `bgrFrame`, which succeeds with `bgrScan`. -/
theorem convert_msg_bins_in_range_witness :
    convert_msg exampleMath exampleConfig bgrFrame exampleCamera = .ok bgrScan ∧
    (∀ v ∈ bgrScan.ranges, v = nan ∨ v = pinf ∨ v = ninf ∨
      (FVal.le bgrScan.range_min v = true ∧ FVal.le v bgrScan.range_max = true)) :=
  ⟨by decide!,
    (convert_msg_bins_in_range exampleMath exampleConfig bgrFrame exampleCamera bgrScan
      (by decide!)).1⟩

/-- The rebuilt depth fits 16 bits. -/
theorem pixelDepth_lt (b0 b1 b2 : Nat) : pixelDepth b0 b1 b2 < 65536 := by
  unfold pixelDepth
  exact Nat.mod_lt _ (by decide)

/-- C9 (the code at the failing input): the pixel with bytes 0, 0, 0 has depth 0, which is
not a valid reading, yet the candidate handed to the merge step is the finite value 0 and
not a NaN or an infinity; with range limits 0 and 10 the merge step accepts it over the
NaN sentinel, and the conversion of a frame that starts with that pixel returns a scan
whose bin 0 holds the finite range 0. -/
theorem invalid_pixel_published_as_range :
    pixelDepth 0 0 0 = 0 ∧
    exampleMath.valid (pixelDepth 0 0 0) = false ∧
    candidate exampleMath 0 (pixelDepth 0 0 0) = fin 0 ∧
    isfinite (candidate exampleMath 0 (pixelDepth 0 0 0)) = true ∧
    use_point (candidate exampleMath 0 (pixelDepth 0 0 0)) nan (fin 0) (fin 10) = true ∧
    (convert_msg exampleMath exampleConfig bgrFrame exampleCamera).toOption.map
      (fun scan => scan.ranges) = some [fin 0, fin (2048 / 1000)] := by
  decide!

/-- Whatever the validity predicate, the candidate that lines 74-86 compute for a pixel
whose depth is not valid is the raw 16-bit depth itself as a floating-point number: a
finite value between 0 and 65535, never a NaN or an infinity; the merge step accepts it
only when it lies within the range limits. -/
theorem invalid_pixel_candidate (pm : PixelMath) (u : Int) (b0 b1 b2 : Nat)
    (hinv : pm.valid (pixelDepth b0 b1 b2) = false) :
    candidate pm u (pixelDepth b0 b1 b2) = fin ((pixelDepth b0 b1 b2 : Nat) : ℚ) ∧
    pixelDepth b0 b1 b2 < 65536 ∧
    isfinite (candidate pm u (pixelDepth b0 b1 b2)) = true ∧
    (∀ old lo hi, use_point (candidate pm u (pixelDepth b0 b1 b2)) old lo hi = true →
      FVal.le lo (candidate pm u (pixelDepth b0 b1 b2)) = true ∧
      FVal.le (candidate pm u (pixelDepth b0 b1 b2)) hi = true) := by
  have hc : candidate pm u (pixelDepth b0 b1 b2) = fin ((pixelDepth b0 b1 b2 : Nat) : ℚ) := by
    simp [candidate, hinv]
  refine ⟨hc, pixelDepth_lt b0 b1 b2, by rw [hc]; rfl, ?_⟩
  intro old lo hi hu
  rw [hc] at hu ⊢
  rcases use_point_accepts _ old lo hi hu with h1 | h1 | h1 | h1
  · cases h1
  · cases h1
  · cases h1
  · exact h1

/-- The candidate of the pixel with bytes 0, 0, 0 in column 0 is its raw depth. -/
theorem invalid_pixel_candidate_witness :
    exampleMath.valid (pixelDepth 0 0 0) = false ∧
    candidate exampleMath 0 (pixelDepth 0 0 0) = fin ((pixelDepth 0 0 0 : Nat) : ℚ) :=
  ⟨by decide, (invalid_pixel_candidate exampleMath 0 0 0 0 (by decide)).1⟩

/-- The geometry check at the boundary, for a principal point inside the image and the height
`S = 2 * min(cy, height - cy)`: `S` passes the check, and `S + 1` is rejected exactly when
`S` is odd. -/
theorem scanHeight_boundary (height : Nat) (cy : ℚ) (S : Int)
    (hS : (S : ℚ) = 2 * min cy ((height : ℚ) - cy)) (h0 : 0 ≤ cy) (h1 : cy ≤ (height : ℚ)) :
    scanHeightTooLarge S height cy = false ∧
    (scanHeightTooLarge (S + 1) height cy = true ↔ S % 2 = 1) := by
  have hmin0 : (0 : ℚ) ≤ min cy ((height : ℚ) - cy) := le_min h0 (by linarith)
  have hSq : (0 : ℚ) ≤ (S : ℚ) := by rw [hS]; positivity
  have hS0 : 0 ≤ S := by exact_mod_cast hSq
  have ht : Int.tdiv S 2 = S / 2 := Int.tdiv_eq_ediv hS0 (by decide)
  have ht1 : Int.tdiv (S + 1) 2 = (S + 1) / 2 := Int.tdiv_eq_ediv (by omega) (by decide)
  have hle1 : min cy ((height : ℚ) - cy) ≤ cy := min_le_left _ _
  have hle2 : min cy ((height : ℚ) - cy) ≤ (height : ℚ) - cy := min_le_right _ _
  have hk : (2 : ℚ) * ((S / 2 : Int) : ℚ) ≤ (S : ℚ) := by
    have : 2 * (S / 2) ≤ S := by omega
    exact_mod_cast this
  constructor
  · simp only [scanHeightTooLarge, ht, Bool.or_eq_false_iff, decide_eq_false_iff_not, not_lt,
      gt_iff_lt]
    constructor <;> linarith
  · rw [scanHeightTooLarge, ht1]
    simp only [Bool.or_eq_true, decide_eq_true_eq, gt_iff_lt]
    rcases Int.emod_two_eq_zero_or_one S with hpar | hpar
    · have he : (S + 1) / 2 = S / 2 := by omega
      have h2 : (2 : ℚ) * ((S / 2 : Int) : ℚ) = (S : ℚ) := by
        have : 2 * (S / 2) = S := by omega
        exact_mod_cast this
      rw [he]
      constructor
      · rintro (h | h) <;> exfalso <;> linarith
      · intro h; omega
    · have he : (S + 1) / 2 = S / 2 + 1 := by omega
      have h2 : (2 : ℚ) * ((S / 2 : Int) : ℚ) + 1 = (S : ℚ) := by
        have : 2 * (S / 2) + 1 = S := by omega
        exact_mod_cast this
      rw [he]
      refine ⟨fun _ => hpar, fun _ => ?_⟩
      push_cast
      rcases min_choice cy ((height : ℚ) - cy) with hm | hm
      · left; rw [hm] at hS; linarith
      · right; rw [hm] at hS; linarith

/-- C10 (the code at the failing input): for a frame 4 rows high and cy = 2 the boundary
height is 2 * min(2, 4 - 2) = 4; the heights 4 and 5 both pass the geometry check
(5 / 2 = 2 in integer division), the band of height 5 starts at row 0 and so reaches row 4,
and `convert_msg` does not raise the scan-height error for it but runs the projector past
the end of the frame buffer. -/
theorem scan_height_five_passes_check :
    scanHeightTooLarge 4 4 2 = false ∧
    scanHeightTooLarge 5 4 2 = false ∧
    bandOffset 2 5 = 0 ∧
    convert_msg exampleMath (bandConfig 5) tallFrame tallCamera
      = .error ConvertError.undefinedBehaviour ∧
    scanHeightTooLarge 6 4 2 = true := by
  decide!

/-! ## Theorems: the 5-6-5 reconstruction -/

/-- Packing of three bit fields: a 5-bit, a 6-bit and a 5-bit value joined by shifts and
bitwise or make the number with those digits in bases 2048 and 32. -/
theorem pack565 (R G B : Nat) (hG : G < 64) (hB : B < 32) :
    (R <<< 11) ||| (G <<< 5) ||| B = R * 2048 + G * 32 + B := by
  have h1 : (R <<< 11) ||| (G <<< 5) = R * 2048 + G * 32 := by
    rw [Nat.shiftLeft_eq, Nat.shiftLeft_eq]
    have hlt : G * 2 ^ 5 < 2 ^ 11 := by omega
    have := Nat.mul_add_lt_is_or hlt R
    rw [Nat.mul_comm (2 ^ 11) R] at this
    rw [← this]
    norm_num
  rw [h1]
  have h2 : R * 2048 + G * 32 = 2 ^ 5 * (R * 64 + G) := by omega
  rw [h2, ← Nat.mul_add_lt_is_or (by omega : B < 2 ^ 5)]

/-- C13: for all 8-bit r, g, b the value of `rgb565ToUint16` is
(r div 8) * 2048 + (g div 4) * 32 + (b div 8); it is below 65536, so the conversion to 16
bits drops nothing; and the three fields do not overlap: the value div 2048 is r div 8,
(the value div 32) mod 64 is g div 4, and the value mod 32 is b div 8. -/
theorem rgb565ToUint16_fields (r g b : Nat) (hr : r < 256) (hg : g < 256) (hb : b < 256) :
    rgb565ToUint16 r g b = (r / 8) * 2048 + (g / 4) * 32 + b / 8 ∧
    (r / 8) * 2048 + (g / 4) * 32 + b / 8 < 65536 ∧
    rgb565ToUint16 r g b / 2048 = r / 8 ∧
    (rgb565ToUint16 r g b / 32) % 64 = g / 4 ∧
    rgb565ToUint16 r g b % 32 = b / 8 := by
  have hval : rgb565ToUint16 r g b = (r / 8) * 2048 + (g / 4) * 32 + b / 8 := by
    unfold rgb565ToUint16
    rw [Nat.mod_eq_of_lt hr, Nat.mod_eq_of_lt hg, Nat.mod_eq_of_lt hb]
    rw [Nat.shiftRight_eq_div_pow, Nat.shiftRight_eq_div_pow, Nat.shiftRight_eq_div_pow]
    rw [pack565 (r / 2 ^ 3) (g / 2 ^ 2) (b / 2 ^ 3) (by omega) (by omega)]
    omega
  rw [hval]
  refine ⟨rfl, ?_, ?_, ?_, ?_⟩ <;> omega

/-- C13 at r = 255, g = 128, b = 7: the value is 31 * 2048 + 32 * 32 + 0. -/
theorem rgb565ToUint16_fields_witness :
    rgb565ToUint16 255 128 7 = (255 / 8) * 2048 + (128 / 4) * 32 + 7 / 8 :=
  (rgb565ToUint16_fields 255 128 7 (by decide) (by decide) (by decide)).1

/-- C20: the depth that the inner loop of `convert<uint8_t>` rebuilds from the bytes at
`3u`, `3u + 1`, `3u + 2` of a row (blue, green, red) is `rgb565ToUint16` of the red, green
and blue bytes, for every frame buffer, row and column at which the three reads succeed. -/
theorem pixelDepth_eq_rgb565ToUint16 (data : List Nat) (rowBase u : Int) (b0 b1 b2 : Nat)
    (h0 : readByte data (rowBase + 3 * u) = some b0)
    (h1 : readByte data (rowBase + 3 * u + 1) = some b1)
    (h2 : readByte data (rowBase + 3 * u + 2) = some b2) :
    pixelDepth b0 b1 b2 = rgb565ToUint16 b2 b1 b0 := by
  have hb : ∀ (a : Int) (b : Nat), readByte data a = some b → b < 256 := by
    intro a b h
    unfold readByte at h
    split at h
    · simp only [Option.map_eq_some'] at h
      obtain ⟨x, _, hx⟩ := h
      omega
    · cases h
  have hb0 := hb _ _ h0
  have hb1 := hb _ _ h1
  have hb2 := hb _ _ h2
  unfold pixelDepth rgb565ToUint16
  simp only [Nat.shiftRight_eq_div_pow]
  rw [Nat.mod_eq_of_lt hb0, Nat.mod_eq_of_lt hb1, Nat.mod_eq_of_lt hb2]
  rw [Nat.mod_eq_of_lt (by omega : b0 / 2 ^ 3 < 65536),
    Nat.mod_eq_of_lt (by omega : b1 / 2 ^ 2 < 65536),
    Nat.mod_eq_of_lt (by omega : b2 / 2 ^ 3 < 65536)]

/-- C20 at the second pixel of `bgrFrame` (bytes 0, 0, 8): both give depth 2048. -/
theorem pixelDepth_eq_rgb565ToUint16_witness :
    readByte bgrFrame.data (0 + 3 * 1) = some 0 ∧
    readByte bgrFrame.data (0 + 3 * 1 + 1) = some 0 ∧
    readByte bgrFrame.data (0 + 3 * 1 + 2) = some 8 ∧
    pixelDepth 0 0 8 = rgb565ToUint16 8 0 0 :=
  ⟨by decide, by decide, by decide,
    pixelDepth_eq_rgb565ToUint16 bgrFrame.data 0 1 0 0 8 (by decide) (by decide) (by decide)⟩

/-! ## Theorems: length of the scan, bin index, band rows -/

/-- The merge step never changes the length of the range vector. -/
theorem mergeAt_length (rs rs' : List FVal) (index : Int) (r lo hi : FVal)
    (h : mergeAt rs index r lo hi = some rs') : rs'.length = rs.length := by
  unfold mergeAt at h
  split at h
  · split at h
    · split at h
      · cases h; simp
      · cases h; rfl
    · cases h
  · cases h

/-- C14: for every successful conversion the range array has exactly as many entries as
the frame is wide: `convert_msg` allocates `width` bins, the merge step keeps the length,
and so the returned scan has `width` ranges. -/
theorem convert_msg_length (pm : PixelMath) (cfg : Config) (depth_msg : Image)
    (cam_model_ : CameraModel) (scan : LaserScan)
    (h : convert_msg pm cfg depth_msg cam_model_ = .ok scan) :
    (initScan pm cfg depth_msg).ranges.length = depth_msg.width ∧
    (∀ rs rs' index r lo hi, mergeAt rs index r lo hi = some rs' → rs'.length = rs.length) ∧
    scan.ranges.length = depth_msg.width := by
  refine ⟨by simp [initScan], fun rs rs' index r lo hi hm => mergeAt_length rs rs' index r lo hi hm,
    ?_⟩
  exact (convert_msg_inv (fun rs => rs.length = depth_msg.width) pm cfg depth_msg cam_model_ scan
    (fun rs index r rs' hrs hm => (mergeAt_length rs rs' index r _ _ hm).trans hrs)
    (by simp) h).1

/-- C14 on the conversion of `bgrFrame`: two columns, two ranges. -/
theorem convert_msg_length_witness :
    convert_msg exampleMath exampleConfig bgrFrame exampleCamera = .ok bgrScan ∧
    bgrScan.ranges.length = bgrFrame.width :=
  ⟨by decide!,
    (convert_msg_length exampleMath exampleConfig bgrFrame exampleCamera bgrScan
      (by decide!)).2.2⟩

/-- Truncation toward zero is the floor of a value that is not negative. -/
theorem truncQ_of_nonneg (q : ℚ) (h : 0 ≤ q) : truncQ q = ⌊q⌋ := by
  unfold truncQ
  rw [Rat.floor_def]
  exact Int.tdiv_eq_ediv (Rat.num_nonneg.2 h) (by positivity)

/-- Truncation toward zero is the ceiling of a negative value. -/
theorem truncQ_of_neg (q : ℚ) (h : q < 0) : truncQ q = ⌈q⌉ := by
  have hfl : ⌊-q⌋ = (-q.num) / (q.den : Int) := by
    rw [Rat.floor_def]; simp
  have hceil : ⌈q⌉ = -⌊-q⌋ := by
    rw [← Int.ceil_neg, neg_neg]
  have hnum : 0 ≤ -q.num := by
    have := Rat.num_neg.2 h
    omega
  unfold truncQ
  rw [hceil, hfl, ← Int.tdiv_eq_ediv hnum (by positivity), Int.neg_tdiv, neg_neg]

/-- C17 (counterexample): when the quotient of a column is -1/2 the bin index the
projector computes is 0, while the integer floor of -1/2 is -1. -/
theorem binIndex_not_floor_counterexample :
    halfMath.quotient 0 = fin (-1 / 2) ∧
    binIndex halfMath 0 = some 0 ∧
    ⌊(-1 / 2 : ℚ)⌋ = -1 := by
  decide!

/-- C17 (amended): the bin index is the quotient truncated toward zero: it is the integer
floor when the quotient is not negative, and the integer ceiling (the floor plus one,
unless the quotient is a whole number) when the quotient is negative. -/
theorem binIndex_truncates (pm : PixelMath) (u : Int) (q : ℚ)
    (hq : pm.quotient u = fin q)
    (hfit : -2147483648 ≤ truncQ q ∧ truncQ q ≤ 2147483647) :
    binIndex pm u = some (truncQ q) ∧
    (0 ≤ q → truncQ q = ⌊q⌋) ∧
    (q < 0 → truncQ q = ⌈q⌉) ∧
    (q < 0 → (⌊q⌋ : ℚ) ≠ q → truncQ q = ⌊q⌋ + 1) := by
  refine ⟨?_, truncQ_of_nonneg q, truncQ_of_neg q, ?_⟩
  · simp [binIndex, hq, toInt32, hfit]
  · intro hneg hne
    rw [truncQ_of_neg q hneg]
    have h1 : (⌊q⌋ : ℚ) < q := lt_of_le_of_ne (Int.floor_le q) hne
    have h2 : q < (⌊q⌋ : ℚ) + 1 := Int.lt_floor_add_one q
    rw [Int.ceil_eq_iff]
    constructor
    · push_cast; linarith
    · push_cast; linarith

/-- The amended C17 at the quotient 1/2 of column 1 of `halfMath`: the index is 0. -/
theorem binIndex_truncates_witness :
    halfMath.quotient 1 = fin (1 / 2) ∧ binIndex halfMath 1 = some (truncQ (1 / 2)) :=
  ⟨by decide!, (binIndex_truncates halfMath 1 (1 / 2) (by decide!) (by decide!)).1⟩

/-- The outer loop of `convert<uint8_t>` visits exactly the rows of `bandRows` when the
band height passed to it is the configured one, as in `convert_msg`. -/
theorem convert_rows (pm : PixelMath) (cfg : Config) (depth_msg : Image)
    (cam_model : CameraModel) (scan_msg : LaserScan) :
    convert pm cfg depth_msg cam_model scan_msg cfg.scan_height_ =
      (bandRows cam_model.cy cfg.scan_height_).foldlM
        (fun rs v => convertRow pm depth_msg.data (v * ((depth_msg.step / 1 : Nat) : Int))
          depth_msg.width scan_msg.range_min scan_msg.range_max rs)
        scan_msg.ranges := by
  unfold convert bandRows
  rw [List.foldlM_map]

/-- What the geometry check does guarantee: for a band height that is not negative and
passes the check, every visited row `v` satisfies `0 <= v <= height`, and `v < height`
when the band height is even. -/
theorem bandRows_bound (height : Nat) (cy : ℚ) (scan_height : Int) (hH : 0 ≤ scan_height)
    (hcheck : scanHeightTooLarge scan_height height cy = false) :
    ∀ v ∈ bandRows cy scan_height,
      0 ≤ v ∧ v ≤ (height : Int) ∧ (scan_height % 2 = 0 → v < (height : Int)) := by
  have ht : Int.tdiv scan_height 2 = scan_height / 2 := Int.tdiv_eq_ediv hH (by decide)
  simp only [scanHeightTooLarge, ht, Bool.or_eq_false_iff, decide_eq_false_iff_not, not_lt,
    gt_iff_lt] at hcheck
  obtain ⟨hc1, hc2⟩ := hcheck
  have hk0 : 0 ≤ scan_height / 2 := by omega
  have hnn : (0 : ℚ) ≤ cy - ((scan_height / 2 : Int) : ℚ) := by linarith
  have hoff : bandOffset cy scan_height = ⌊cy⌋ - scan_height / 2 := by
    unfold bandOffset
    rw [ht, truncQ_of_nonneg _ hnn, Int.floor_sub_int]
  have hfl0 : scan_height / 2 ≤ ⌊cy⌋ := Int.le_floor.2 hc1
  have hfl1 : ⌊cy⌋ ≤ (height : Int) - scan_height / 2 := by
    have h1 : cy ≤ (((height : Int) - scan_height / 2 : Int) : ℚ) := by
      push_cast; linarith
    have h2 : (⌊cy⌋ : ℚ) ≤ (((height : Int) - scan_height / 2 : Int) : ℚ) :=
      le_trans (Int.floor_le cy) h1
    exact_mod_cast h2
  intro v hv
  simp only [bandRows, List.mem_map, List.mem_range] at hv
  obtain ⟨k, hk, rfl⟩ := hv
  rw [hoff]
  have hcast : ((scan_height.toNat : Nat) : Int) = scan_height := Int.toNat_of_nonneg hH
  have hk' : (k : Int) < scan_height := by
    rw [← hcast]; exact_mod_cast hk
  refine ⟨by omega, by omega, fun hpar => by omega⟩

/-- C19 (the code at the failing input): for a frame 4 rows high and cy = 2 the band
height 5 passes the geometry check and the loop visits rows 0 to 4, and row 4 is not a row
of the frame; likewise band height 1 with cy = 4 passes the check and visits row 4. -/
theorem band_row_outside_image :
    scanHeightTooLarge 5 4 2 = false ∧
    bandRows 2 5 = [0, 1, 2, 3, 4] ∧
    (4 : Int) ∈ bandRows 2 5 ∧ ¬ ((4 : Int) < ((4 : Nat) : Int)) ∧
    scanHeightTooLarge 1 4 4 = false ∧
    bandRows 4 1 = [4] := by
  decide!

/-! ## Theorems: accesses of the projector, failures of `convert_msg` -/

/-- The merge step is defined exactly when the index is a position of the range vector. -/
theorem mergeAt_isSome_iff (rs : List FVal) (index : Int) (r lo hi : FVal) :
    (∃ rs', mergeAt rs index r lo hi = some rs') ↔ (0 ≤ index ∧ index < (rs.length : Int)) := by
  unfold mergeAt
  constructor
  · rintro ⟨rs', h⟩
    split at h
    · rename_i h0
      split at h
      · rename_i old hget
        have hlt : index.toNat < rs.length := (List.getElem?_eq_some.1 hget).1
        exact ⟨h0, by omega⟩
      · cases h
    · cases h
  · rintro ⟨h0, h1⟩
    have hlt : index.toNat < rs.length := by omega
    rw [if_pos h0, List.getElem?_eq_getElem hlt]
    simp only
    split
    · exact ⟨_, rfl⟩
    · exact ⟨_, rfl⟩

/-- C15 (the code at the failing input): the merge step has no guard, so for an index
outside the range vector (here 2 and -1 for a vector of two bins) the access
`ranges[index]` is outside the buffer; and for a one-pixel frame whose principal point is
column 0 the geometry check and the encoding test pass, the quotient is a NaN, and the
projector converts it to an index and indexes the vector with it. -/
theorem unguarded_index_evaluation :
    mergeAt [nan, nan] 2 (fin 3) (fin 0) (fin 10) = none ∧
    mergeAt [nan, nan] (-1) (fin 3) (fin 0) (fin 10) = none ∧
    scanHeightTooLarge 1 pixelFrame.height exampleCamera.cy = false ∧
    binIndex degenerateMath 0 = none ∧
    convert_msg degenerateMath exampleConfig pixelFrame exampleCamera
      = .error ConvertError.undefinedBehaviour := by
  decide!

/-- A fold in `Option` is defined, and keeps an invariant, when every step from a state
with the invariant is defined and keeps it. -/
theorem foldlM_option_some {α β : Type} (P : β → Prop) (f : β → α → Option β) :
    ∀ (l : List α), (∀ a ∈ l, ∀ b, P b → ∃ b', f b a = some b' ∧ P b') →
      ∀ b, P b → ∃ b', l.foldlM f b = some b' ∧ P b' := by
  intro l
  induction l with
  | nil =>
    intro _ b hb
    exact ⟨b, rfl, hb⟩
  | cons a l ih =>
    intro hf b hb
    obtain ⟨b1, hb1, hP1⟩ := hf a (List.mem_cons_self a l) b hb
    obtain ⟨b2, hb2, hP2⟩ := ih (fun a' ha' => hf a' (List.mem_cons_of_mem a ha')) b1 hP1
    refine ⟨b2, ?_, hP2⟩
    rw [List.foldlM_cons, hb1]
    exact hb2

/-- A byte read inside the buffer is defined. -/
theorem readByte_some (data : List Nat) (addr : Int) (h0 : 0 ≤ addr)
    (h1 : addr < (data.length : Int)) : ∃ b, readByte data addr = some b := by
  have hlt : addr.toNat < data.length := by omega
  unfold readByte
  rw [if_pos h0, List.getElem?_eq_getElem hlt]
  exact ⟨_, rfl⟩

/-- A sample read inside the buffer is defined. -/
theorem readSample_some {α : Type} (samples : List α) (addr : Int) (h0 : 0 ≤ addr)
    (h1 : addr < (samples.length : Int)) : ∃ b, readSample samples addr = some b := by
  have hlt : addr.toNat < samples.length := by omega
  unfold readSample
  rw [if_pos h0, List.getElem?_eq_getElem hlt]
  exact ⟨_, rfl⟩

/-- The merge step at a position of the vector is defined and keeps the length. -/
theorem mergeAt_some (width : Nat) (rs : List FVal) (index : Int) (r lo hi : FVal)
    (hlen : rs.length = width) (h0 : 0 ≤ index) (h1 : index < (width : Int)) :
    ∃ rs', mergeAt rs index r lo hi = some rs' ∧ rs'.length = width := by
  obtain ⟨rs', h⟩ := (mergeAt_isSome_iff rs index r lo hi).2 ⟨h0, by rw [hlen]; exact h1⟩
  exact ⟨rs', h, (mergeAt_length rs rs' index r lo hi h).trans hlen⟩

/-- One row of the packed-colour projector is defined when its accesses are in bounds. -/
theorem convertRow_some (pm : PixelMath) (data : List Nat) (rowBase : Int) (width : Nat)
    (lo hi : FVal) (rs : List FVal) (hlen : rs.length = width)
    (hread : ∀ u : Nat, u < width → ∀ j : Nat, j < 3 →
      0 ≤ rowBase + 3 * (u : Int) + (j : Int) ∧
      rowBase + 3 * (u : Int) + (j : Int) < (data.length : Int))
    (hidx : ∀ u : Nat, u < width → ∃ i ∈ binIndex pm (u : Int), 0 ≤ i ∧ i < (width : Int)) :
    ∃ rs', convertRow pm data rowBase width lo hi rs = some rs' ∧ rs'.length = width := by
  unfold convertRow
  refine foldlM_option_some (fun rs => rs.length = width)
    (fun rs (u : Nat) => convertPixel pm data rowBase lo hi rs (u : Int))
    (List.range width) (fun u hu rs1 hrs1 => ?_) rs hlen
  have hu' : u < width := List.mem_range.1 hu
  obtain ⟨b0, hb0⟩ := readByte_some data (rowBase + 3 * (u : Int))
    (by have := hread u hu' 0 (by decide); simpa using this.1)
    (by have := hread u hu' 0 (by decide); simpa using this.2)
  obtain ⟨b1, hb1⟩ := readByte_some data (rowBase + 3 * (u : Int) + 1)
    (by have := hread u hu' 1 (by decide); simpa using this.1)
    (by have := hread u hu' 1 (by decide); simpa using this.2)
  obtain ⟨b2, hb2⟩ := readByte_some data (rowBase + 3 * (u : Int) + 2)
    (by have := hread u hu' 2 (by decide); simpa using this.1)
    (by have := hread u hu' 2 (by decide); simpa using this.2)
  obtain ⟨i, hmem, hi0, hi1⟩ := hidx u hu'
  obtain ⟨rs2, hm, hl2⟩ := mergeAt_some width rs1 i
    (candidate pm (u : Int) (pixelDepth b0 b1 b2)) lo hi hrs1 hi0 hi1
  refine ⟨rs2, ?_, hl2⟩
  simp only [convertPixel, bind, Option.bind_eq_some]
  exact ⟨b0, hb0, b1, hb1, b2, hb2, i, Option.mem_def.1 hmem, hm⟩

/-- The packed-colour projector is defined when its accesses are in bounds. -/
theorem convert_some (pm : PixelMath) (cfg : Config) (depth_msg : Image)
    (cam_model : CameraModel) (scan_msg : LaserScan)
    (hlen : scan_msg.ranges.length = depth_msg.width)
    (hb : BgrInBounds pm cfg depth_msg cam_model) :
    ∃ rs', convert pm cfg depth_msg cam_model scan_msg cfg.scan_height_ = some rs' := by
  obtain ⟨hread, hidx⟩ := hb
  rw [convert_rows]
  obtain ⟨rs', h, _⟩ := foldlM_option_some (fun rs => rs.length = depth_msg.width)
    (fun rs v => convertRow pm depth_msg.data (v * ((depth_msg.step / 1 : Nat) : Int))
      depth_msg.width scan_msg.range_min scan_msg.range_max rs)
    (bandRows cam_model.cy cfg.scan_height_)
    (fun v hv rs hrs => convertRow_some pm depth_msg.data _ depth_msg.width _ _ rs hrs
      (fun u hu j hj => hread v hv u hu j hj) hidx)
    scan_msg.ranges hlen
  exact ⟨rs', h⟩

/-- The generic projector is defined when its accesses are in bounds. -/
theorem convertGeneric_some {α : Type} (pm : PixelMath) (samples : List α)
    (step : FVal → FVal → List FVal → Int → α → Option (List FVal))
    (row_step : Int) (cfg : Config) (depth_msg : Image)
    (cam_model : CameraModel) (scan_msg : LaserScan)
    (hlen : scan_msg.ranges.length = depth_msg.width)
    (hb : GenericInBounds pm cfg depth_msg cam_model samples.length row_step)
    (hstep : ∀ lo hi rs (u : Nat) a, rs.length = depth_msg.width → u < depth_msg.width →
      ∃ rs', step lo hi rs (u : Int) a = some rs' ∧ rs'.length = depth_msg.width) :
    ∃ rs', convertGeneric samples step row_step cfg depth_msg cam_model scan_msg
      cfg.scan_height_ = some rs' := by
  obtain ⟨hread, _⟩ := hb
  unfold convertGeneric
  obtain ⟨rs', h, _⟩ := foldlM_option_some (fun rs => rs.length = depth_msg.width)
    (fun rs (k : Nat) => (List.range depth_msg.width).foldlM
      (fun rs2 (u : Nat) => do
        let s ← readSample samples
          ((bandOffset cam_model.cy cfg.scan_height_ + (k : Int)) * row_step + (u : Int))
        step scan_msg.range_min scan_msg.range_max rs2 (u : Int) s) rs)
    (List.range cfg.scan_height_.toNat)
    (fun k hk rs hrs => by
      have hv : bandOffset cam_model.cy cfg.scan_height_ + (k : Int)
          ∈ bandRows cam_model.cy cfg.scan_height_ :=
        List.mem_map.2 ⟨k, hk, rfl⟩
      refine foldlM_option_some (fun rs => rs.length = depth_msg.width) _
        (List.range depth_msg.width) (fun u hu rs1 hrs1 => ?_) rs hrs
      have hu' : u < depth_msg.width := List.mem_range.1 hu
      obtain ⟨a, ha⟩ := readSample_some samples _ (hread _ hv u hu').1 (hread _ hv u hu').2
      obtain ⟨rs2, hs, hl2⟩ := hstep scan_msg.range_min scan_msg.range_max rs1 u a hrs1 hu'
      refine ⟨rs2, ?_, hl2⟩
      simp only [bind, Option.bind_eq_some]
      exact ⟨a, ha, hs⟩)
    scan_msg.ranges hlen
  exact ⟨rs', h⟩

/-- The generic pixel step is defined when the floor of the quotient is a position of the
range vector. -/
theorem genericPixel_some (pm : PixelMath) (raw : FVal) (isValid : Bool) (dist lo hi : FVal)
    (width : Nat) (rs : List FVal) (u : Int) (hlen : rs.length = width)
    (hidx : ∃ i ∈ floorIndex (pm.quotient u), 0 ≤ i ∧ i < (width : Int)) :
    ∃ rs', genericPixel pm raw isValid dist lo hi rs u = some rs' ∧ rs'.length = width := by
  obtain ⟨i, hmem, hi0, hi1⟩ := hidx
  obtain ⟨rs2, hm, hl2⟩ := mergeAt_some width rs i (if isValid then dist else raw) lo hi
    hlen hi0 hi1
  refine ⟨rs2, ?_, hl2⟩
  simp only [genericPixel, bind, Option.bind_eq_some]
  exact ⟨i, Option.mem_def.1 hmem, hm⟩

/-- The result of `convert_msg` is one of the two exceptions exactly when the geometry
check fires or the encoding is none of the three known ones. -/
theorem convert_msg_throws_iff (pm : PixelMath) (cfg : Config) (depth_msg : Image)
    (cam_model_ : CameraModel) :
    Throws (convert_msg pm cfg depth_msg cam_model_) ↔
      (scanHeightTooLarge cfg.scan_height_ depth_msg.height cam_model_.cy = true ∨
        knownEncoding depth_msg.encoding = false) := by
  have hfin : ∀ (s : LaserScan) (o : Option (List FVal)), ¬ Throws (finish s o) := by
    intro s o
    cases o <;> simp [finish, Throws]
  unfold convert_msg
  simp only
  by_cases hc : scanHeightTooLarge cfg.scan_height_ depth_msg.height cam_model_.cy = true
  · simp [hc, Throws]
  · by_cases h1 : depth_msg.encoding = "16UC1"
    · simp [hc, h1, hfin, knownEncoding]
    · by_cases h2 : depth_msg.encoding = "32FC1"
      · simp [hc, h1, h2, hfin, knownEncoding]
      · by_cases h3 : depth_msg.encoding = "bgr8"
        · simp [hc, h1, h2, h3, hfin, knownEncoding]
        · simp [hc, h1, h2, h3, Throws, knownEncoding]

/-- C11 (the code at the failing input): for the one-pixel frame whose principal point is
column 0 the geometry check does not fire and the encoding is BGR8, so neither failure
condition holds and `convert_msg` throws neither exception; but the run does not reach a
defined scan either: the quotient is a NaN, and the projector converts it to an index and
indexes the range vector with it (undefined behaviour). Likewise for the frame 4 rows high
with cy = 2 and band height 5, where the projector reads row 4, outside the frame buffer. -/
theorem convert_msg_undefined_evaluation :
    scanHeightTooLarge exampleConfig.scan_height_ pixelFrame.height exampleCamera.cy = false ∧
    knownEncoding pixelFrame.encoding = true ∧
    ¬ Throws (convert_msg degenerateMath exampleConfig pixelFrame exampleCamera) ∧
    binIndex degenerateMath 0 = none ∧
    convert_msg degenerateMath exampleConfig pixelFrame exampleCamera
      = .error ConvertError.undefinedBehaviour ∧
    scanHeightTooLarge (bandConfig 5).scan_height_ tallFrame.height tallCamera.cy = false ∧
    knownEncoding tallFrame.encoding = true ∧
    ¬ Throws (convert_msg exampleMath (bandConfig 5) tallFrame tallCamera) ∧
    convert_msg exampleMath (bandConfig 5) tallFrame tallCamera
      = .error ConvertError.undefinedBehaviour := by
  have h1 : convert_msg exampleMath (bandConfig 5) tallFrame tallCamera
      = .error ConvertError.undefinedBehaviour := by decide!
  have h2 : convert_msg degenerateMath exampleConfig pixelFrame exampleCamera
      = .error ConvertError.undefinedBehaviour := by decide!
  refine ⟨by decide!, by decide!, ?_, by decide!, h2, by decide!, by decide!, ?_, h1⟩
  · rw [h2]; simp [Throws]
  · rw [h1]; simp [Throws]

/-- The part of the failure contract that the code keeps: `convert_msg` throws exactly
when the geometry check fires (scan_height / 2 exceeds cy or height - cy) or the encoding
is none of 16UC1, 32FC1, BGR8; a scan is returned only when neither holds; every frame
with an unrecognised encoding is rejected, whatever its pixel data; and when neither holds
and the accesses of the projector are in bounds, a scan is returned. -/
theorem convert_msg_failures (pm : PixelMath) (cfg : Config) (depth_msg : Image)
    (cam_model_ : CameraModel) :
    (Throws (convert_msg pm cfg depth_msg cam_model_) ↔
      (scanHeightTooLarge cfg.scan_height_ depth_msg.height cam_model_.cy = true ∨
        knownEncoding depth_msg.encoding = false)) ∧
    (∀ scan, convert_msg pm cfg depth_msg cam_model_ = .ok scan →
      scanHeightTooLarge cfg.scan_height_ depth_msg.height cam_model_.cy = false ∧
        knownEncoding depth_msg.encoding = true) ∧
    (knownEncoding depth_msg.encoding = false →
      Throws (convert_msg pm cfg depth_msg cam_model_)) ∧
    (scanHeightTooLarge cfg.scan_height_ depth_msg.height cam_model_.cy = false →
      knownEncoding depth_msg.encoding = true →
      InBounds pm cfg depth_msg cam_model_ →
      ∃ scan, convert_msg pm cfg depth_msg cam_model_ = .ok scan) := by
  have hiff := convert_msg_throws_iff pm cfg depth_msg cam_model_
  refine ⟨hiff, ?_, fun hk => hiff.2 (Or.inr hk), ?_⟩
  · intro scan hok
    have hnot : ¬ Throws (convert_msg pm cfg depth_msg cam_model_) := by
      rw [hok]; simp [Throws]
    rw [hiff] at hnot
    push_neg at hnot
    exact ⟨by simpa using hnot.1, by simpa using hnot.2⟩
  · intro hc hk hb
    have hlen : (initScan pm cfg depth_msg).ranges.length = depth_msg.width := by
      simp [initScan]
    have hfin : ∀ o : Option (List FVal), (∃ rs, o = some rs) →
        ∃ scan, finish (initScan pm cfg depth_msg) o = .ok scan := by
      rintro o ⟨rs, rfl⟩
      exact ⟨_, rfl⟩
    unfold convert_msg
    simp only [hc]
    unfold InBounds at hb
    by_cases h1 : depth_msg.encoding = "16UC1"
    · simp only [h1, if_true] at hb ⊢
      refine hfin _ (convertGeneric_some pm _ _ _ cfg depth_msg cam_model_ _ hlen hb ?_)
      intro lo hi rs u a hrs hu
      exact genericPixel_some pm _ _ _ lo hi depth_msg.width rs u hrs (hb.2 u hu)
    · by_cases h2 : depth_msg.encoding = "32FC1"
      · simp only [h1, h2, if_true, if_false] at hb ⊢
        refine hfin _ (convertGeneric_some pm _ _ _ cfg depth_msg cam_model_ _ hlen hb ?_)
        intro lo hi rs u a hrs hu
        exact genericPixel_some pm _ _ _ lo hi depth_msg.width rs u hrs (hb.2 u hu)
      · have h3 : depth_msg.encoding = "bgr8" := by
          simpa [knownEncoding, h1, h2] using hk
        simp only [h1, h2, if_false] at hb
        simp only [h1, h2, h3, if_true, if_false]
        exact hfin _ (convert_some pm cfg depth_msg cam_model_ _ hlen hb)

/-- On `bgrFrame` the check passes, the encoding is known, the accesses are in bounds, and
a scan is returned. -/
theorem convert_msg_failures_witness :
    scanHeightTooLarge exampleConfig.scan_height_ bgrFrame.height exampleCamera.cy = false ∧
    knownEncoding bgrFrame.encoding = true ∧
    InBounds exampleMath exampleConfig bgrFrame exampleCamera ∧
    ∃ scan, convert_msg exampleMath exampleConfig bgrFrame exampleCamera = .ok scan :=
  ⟨by decide!, by decide!, by decide!,
    (convert_msg_failures exampleMath exampleConfig bgrFrame exampleCamera).2.2.2
      (by decide!) (by decide!) (by decide!)⟩

/-! ## Theorems: nearest valid reading wins -/

/-- The pixel step of the projector is the pixel's index and candidate followed by the
merge step. -/
theorem convertPixel_eq (pm : PixelMath) (data : List Nat) (rowBase : Int) (lo hi : FVal)
    (rs : List FVal) (u : Int) :
    convertPixel pm data rowBase lo hi rs u =
      (pixelEvent pm data rowBase u).bind (fun p => mergeAt rs p.1 p.2 lo hi) := by
  simp only [convertPixel, pixelEvent, bind, pure, Option.bind_assoc, Option.some_bind]

/-- A fold of merges over computed pixels is the merge of the list of those pixels. -/
theorem foldlM_events {α : Type} (ev : α → Option (Int × FVal)) (lo hi : FVal) :
    ∀ (l : List α) (rs : List FVal),
      l.foldlM (fun rs a => (ev a).bind (fun p => mergeAt rs p.1 p.2 lo hi)) rs =
        (eventsOf ev l).bind (fun ps => mergeBand ps lo hi rs) := by
  intro l
  induction l with
  | nil => intro rs; simp [mergeBand, eventsOf]
  | cons a l ih =>
    intro rs
    rw [List.foldlM_cons]
    cases hev : ev a with
    | none => simp [eventsOf, hev]
    | some p =>
      cases hm : mergeAt rs p.1 p.2 lo hi with
      | none =>
        cases hl : eventsOf ev l with
        | none => simp [eventsOf, hev, hl, hm]
        | some ps => simp [eventsOf, hev, hl, hm, mergeBand]
      | some rs1 =>
        cases hl : eventsOf ev l with
        | none => simp [eventsOf, hev, hl, hm, ih]
        | some ps => simp [eventsOf, hev, hl, hm, ih, mergeBand]

/-- Two nested folds, rows outside and columns inside, are one fold over the positions in
loop order. -/
theorem foldlM_positions {β : Type} (g : β → Int × Nat → Option β) (cols : List Nat) :
    ∀ (rows : List Int) (b : β),
      rows.foldlM (fun b v => cols.foldlM (fun b u => g b (v, u)) b) b =
        (rows.flatMap (fun v => cols.map (fun (u : Nat) => (v, u)))).foldlM g b := by
  intro rows
  induction rows with
  | nil => intro b; rfl
  | cons v rows ih =>
    intro b
    rw [List.foldlM_cons, List.flatMap_cons, List.foldlM_append, List.foldlM_map]
    congr 1
    funext b1
    exact ih b1

/-- The packed-colour projector is the merge, in loop order, of the pixels of its band. -/
theorem convert_eq_mergeBand (pm : PixelMath) (cfg : Config) (depth_msg : Image)
    (cam_model : CameraModel) (scan_msg : LaserScan) :
    convert pm cfg depth_msg cam_model scan_msg cfg.scan_height_ =
      (bandPixels pm cfg depth_msg cam_model).bind
        (fun ps => mergeBand ps scan_msg.range_min scan_msg.range_max scan_msg.ranges) := by
  rw [convert_rows]
  unfold convertRow bandPixels bandPositions
  rw [foldlM_positions
    (fun rs (pos : Int × Nat) => convertPixel pm depth_msg.data
      (pos.1 * ((depth_msg.step / 1 : Nat) : Int)) scan_msg.range_min scan_msg.range_max rs
      (pos.2 : Int))]
  rw [← foldlM_events]
  congr 1
  funext rs pos
  exact convertPixel_eq pm depth_msg.data _ _ _ rs _

/-- A finite candidate replaces a NaN bin exactly when it is within the range limits. -/
theorem use_point_fin_nan (c : ℚ) (lo hi : FVal) :
    use_point (fin c) nan lo hi = (FVal.le lo (fin c) && FVal.le (fin c) hi) := by
  cases h : (FVal.le lo (fin c) && FVal.le (fin c) hi) <;> simp [use_point, isfinite, h]

/-- A finite candidate replaces a finite bin exactly when it is within the range limits
and smaller. -/
theorem use_point_fin_fin (c m : ℚ) (lo hi : FVal) :
    use_point (fin c) (fin m) lo hi =
      (FVal.le lo (fin c) && FVal.le (fin c) hi && decide (c < m)) := by
  cases h : (FVal.le lo (fin c) && FVal.le (fin c) hi) <;>
    simp [use_point, isfinite, h, FVal.lt]

/-- The candidates of a bin after one more pixel. -/
theorem binCandidates_snoc (done : List (Int × FVal)) (idx : Int) (c : ℚ) (lo hi : FVal)
    (i : Nat) :
    binCandidates (done ++ [(idx, fin c)]) lo hi i =
      binCandidates done lo hi i ++
        (if idx = (i : Int) ∧ (FVal.le lo (fin c) && FVal.le (fin c) hi) = true
          then [c] else []) := by
  unfold binCandidates
  rw [List.filterMap_append]
  congr 1
  by_cases h : idx = (i : Int) ∧ (FVal.le lo (fin c) && FVal.le (fin c) hi) = true
  · have h' : idx = (i : Int) ∧ FVal.le lo (fin c) = true ∧ FVal.le (fin c) hi = true := by
      simpa using h
    simp [h, h']
  · have h' : ¬ (idx = (i : Int) ∧ FVal.le lo (fin c) = true ∧ FVal.le (fin c) hi = true) := by
      simpa using h
    simp [h, h']

/-- The minimum of no candidates and one more. -/
theorem holdsMin_single (c : ℚ) : HoldsMin (fin c) ([] ++ [c]) :=
  Or.inr ⟨c, by simp, rfl, by simp⟩

/-- One merge of a finite candidate keeps every bin at the minimum of its candidates. -/
theorem mergeAt_holdsMin (width : Nat) (lo hi : FVal) (done : List (Int × FVal))
    (rs rs' : List FVal) (idx : Int) (c : ℚ)
    (hinv : ∀ i, i < width → ∃ v, rs[i]? = some v ∧ HoldsMin v (binCandidates done lo hi i))
    (hm : mergeAt rs idx (fin c) lo hi = some rs') :
    ∀ i, i < width →
      ∃ v, rs'[i]? = some v ∧ HoldsMin v (binCandidates (done ++ [(idx, fin c)]) lo hi i) := by
  intro i hiw
  obtain ⟨v, hv, hmin⟩ := hinv i hiw
  rw [binCandidates_snoc]
  unfold mergeAt at hm
  split at hm
  swap
  · cases hm
  rename_i h0
  split at hm
  swap
  · cases hm
  rename_i old hold
  by_cases hidx : idx = (i : Int)
  · have hnat : idx.toNat = i := by omega
    rw [hnat] at hold hm
    rw [hv] at hold
    cases hold
    have hlt : i < rs.length := (List.getElem?_eq_some.1 hv).1
    rcases hmin with ⟨hnil, rfl⟩ | ⟨m, hmem, rfl, hle⟩
    · rw [use_point_fin_nan] at hm
      rw [hnil]
      cases hr : (FVal.le lo (fin c) && FVal.le (fin c) hi)
      · rw [hr] at hm
        simp only [Bool.false_eq_true, if_false, Option.some.injEq] at hm
        subst hm
        refine ⟨nan, hv, Or.inl ⟨by simp [hidx], rfl⟩⟩
      · rw [hr] at hm
        simp only [if_true, Option.some.injEq] at hm
        subst hm
        refine ⟨fin c, by simp [hlt], ?_⟩
        simp only [hidx, true_and, if_true]
        exact holdsMin_single c
    · rw [use_point_fin_fin] at hm
      cases hr : (FVal.le lo (fin c) && FVal.le (fin c) hi)
      · rw [hr] at hm
        simp only [Bool.false_and, Bool.false_eq_true, if_false, Option.some.injEq] at hm
        subst hm
        refine ⟨fin m, hv, Or.inr ⟨m, by simp [hmem], rfl, ?_⟩⟩
        simpa using hle
      · rw [hr] at hm
        simp only [hidx, true_and, if_true]
        by_cases hcm : c < m
        · simp only [Bool.true_and, hcm, decide_True, if_true, Option.some.injEq] at hm
          subst hm
          refine ⟨fin c, by simp [hlt], Or.inr ⟨c, by simp, rfl, ?_⟩⟩
          intro x hx
          rcases List.mem_append.1 hx with hx | hx
          · exact le_trans (le_of_lt hcm) (hle x hx)
          · simp at hx; rw [hx]
        · simp only [Bool.true_and, hcm, decide_False, Bool.false_eq_true, if_false,
            Option.some.injEq] at hm
          subst hm
          refine ⟨fin m, hv, Or.inr ⟨m, by simp [hmem], rfl, ?_⟩⟩
          intro x hx
          rcases List.mem_append.1 hx with hx | hx
          · exact hle x hx
          · simp at hx; rw [hx]; exact not_lt.1 hcm
  · have hne : idx.toNat ≠ i := by omega
    have hsame : rs'[i]? = rs[i]? := by
      split at hm
      · cases hm
        rw [List.getElem?_set_ne hne]
      · cases hm; rfl
    refine ⟨v, by rw [hsame]; exact hv, ?_⟩
    simpa [hidx] using hmin

/-- Merging a band of finite candidates keeps every bin at the minimum of its candidates. -/
theorem mergeBand_holdsMin (width : Nat) (lo hi : FVal) :
    ∀ (ps done : List (Int × FVal)) (rs rs' : List FVal),
      (∀ p ∈ ps, isfinite p.2 = true) →
      (∀ i, i < width → ∃ v, rs[i]? = some v ∧ HoldsMin v (binCandidates done lo hi i)) →
      mergeBand ps lo hi rs = some rs' →
      ∀ i, i < width →
        ∃ v, rs'[i]? = some v ∧ HoldsMin v (binCandidates (done ++ ps) lo hi i) := by
  intro ps
  induction ps with
  | nil =>
    intro done rs rs' _ hinv hm
    simp only [mergeBand, List.foldlM_nil, pure, Option.some.injEq] at hm
    subst hm
    simpa using hinv
  | cons p ps ih =>
    intro done rs rs' hfin hinv hm
    obtain ⟨idx, v⟩ := p
    have hv : isfinite v = true := hfin (idx, v) (List.mem_cons_self _ _)
    cases v with
    | fin c =>
      unfold mergeBand at hm
      rw [List.foldlM_cons] at hm
      cases h1 : mergeAt rs idx (fin c) lo hi with
      | none => rw [h1] at hm; cases hm
      | some rs1 =>
        rw [h1] at hm
        have hstep := mergeAt_holdsMin width lo hi done rs rs1 idx c hinv h1
        have := ih (done ++ [(idx, fin c)]) rs1 rs'
          (fun q hq => hfin q (List.mem_cons_of_mem _ hq)) hstep hm
        simpa [List.append_assoc] using this
    | nan => cases hv
    | pinf => cases hv
    | ninf => cases hv

/-- Merging a band keeps the length of the range vector. -/
theorem mergeBand_length (lo hi : FVal) (ps : List (Int × FVal)) (rs rs' : List FVal)
    (h : mergeBand ps lo hi rs = some rs') : rs'.length = rs.length :=
  foldlM_option_inv (fun l => l.length = rs.length)
    (fun l (p : Int × FVal) => mergeAt l p.1 p.2 lo hi)
    (fun b a b' hb hs => (mergeAt_length b b' a.1 a.2 lo hi hs).trans hb) ps rs rs' rfl h

/-- Merging a band is defined when every index is a position of the range vector. -/
theorem mergeBand_some (width : Nat) (lo hi : FVal) (ps : List (Int × FVal)) (rs : List FVal)
    (hlen : rs.length = width) (hidx : ∀ p ∈ ps, 0 ≤ p.1 ∧ p.1 < (width : Int)) :
    ∃ rs', mergeBand ps lo hi rs = some rs' := by
  obtain ⟨rs', h, _⟩ := foldlM_option_some (fun l => l.length = width)
    (fun l (p : Int × FVal) => mergeAt l p.1 p.2 lo hi) ps
    (fun p hp l hl => mergeAt_some width l p.1 p.2 lo hi hl (hidx p hp).1 (hidx p hp).2)
    rs hlen
  exact ⟨rs', h⟩

/-- Merging a band is undefined when one index is not a position of the range vector. -/
theorem mergeBand_none (width : Nat) (lo hi : FVal) (p : Int × FVal)
    (hbad : ¬ (0 ≤ p.1 ∧ p.1 < (width : Int))) :
    ∀ (ps : List (Int × FVal)) (rs : List FVal), rs.length = width → p ∈ ps →
      mergeBand ps lo hi rs = none := by
  intro ps
  induction ps with
  | nil => intro rs _ hp; cases hp
  | cons q ps ih =>
    intro rs hlen hp
    unfold mergeBand
    rw [List.foldlM_cons]
    cases h1 : mergeAt rs q.1 q.2 lo hi with
    | none => rfl
    | some rs1 =>
      have hl1 : rs1.length = width := (mergeAt_length rs rs1 q.1 q.2 lo hi h1).trans hlen
      rcases List.mem_cons.1 hp with heq | hmem
      · exfalso
        apply hbad
        have := (mergeAt_isSome_iff rs q.1 q.2 lo hi).1 ⟨rs1, h1⟩
        rw [heq, ← hlen]
        exact this
      · exact ih rs1 hl1 hmem

/-- The minimum of a list of candidates does not depend on their order. -/
theorem holdsMin_unique (v v' : FVal) (cs cs' : List ℚ) (h : HoldsMin v cs)
    (h' : HoldsMin v' cs') (hperm : cs.Perm cs') : v = v' := by
  rcases h with ⟨hnil, rfl⟩ | ⟨m, hm, rfl, hle⟩
  · rcases h' with ⟨_, rfl⟩ | ⟨m', hm', _, _⟩
    · rfl
    · rw [hnil] at hperm
      rw [List.nil_perm.1 hperm] at hm'
      cases hm'
  · rcases h' with ⟨hnil', _⟩ | ⟨m', hm', rfl, hle'⟩
    · rw [hnil'] at hperm
      rw [List.perm_nil.1 hperm] at hm
      cases hm
    · have h1 : m ≤ m' := hle m' (hperm.mem_iff.2 hm')
      have h2 : m' ≤ m := hle' m (hperm.mem_iff.1 hm)
      rw [le_antisymm h1 h2]

/-- C18: nearest valid reading wins over the whole band. Start from `width` NaN bins and
merge pixels with finite candidates in any order: if the merge is defined, the vector
still has `width` bins and each bin holds the minimum of the candidates mapped to it that
lie within the range limits, or NaN when there is none; the merge is defined when every
index is a bin; and any reordering of the pixels gives the same final vector. (By
`convert_eq_mergeBand` the packed-colour projector is such a merge of its band.) -/
theorem band_nearest_valid_wins (ps : List (Int × FVal)) (width : Nat) (lo hi : FVal)
    (hfin : ∀ p ∈ ps, isfinite p.2 = true) :
    (∀ rs', mergeBand ps lo hi (List.replicate width nan) = some rs' →
      rs'.length = width ∧
      ∀ i, i < width → ∃ v, rs'[i]? = some v ∧ HoldsMin v (binCandidates ps lo hi i)) ∧
    ((∀ p ∈ ps, 0 ≤ p.1 ∧ p.1 < (width : Int)) →
      ∃ rs', mergeBand ps lo hi (List.replicate width nan) = some rs') ∧
    (∀ ps' : List (Int × FVal), ps'.Perm ps →
      mergeBand ps' lo hi (List.replicate width nan) =
        mergeBand ps lo hi (List.replicate width nan)) := by
  have hinit : ∀ i, i < width → ∃ v, (List.replicate width nan)[i]? = some v ∧
      HoldsMin v (binCandidates [] lo hi i) := by
    intro i hi'
    exact ⟨nan, by simp [hi'], Or.inl ⟨rfl, rfl⟩⟩
  have hchar : ∀ qs : List (Int × FVal), (∀ p ∈ qs, isfinite p.2 = true) →
      ∀ rs', mergeBand qs lo hi (List.replicate width nan) = some rs' →
        rs'.length = width ∧
        ∀ i, i < width → ∃ v, rs'[i]? = some v ∧ HoldsMin v (binCandidates qs lo hi i) := by
    intro qs hq rs' hm
    refine ⟨by simpa using mergeBand_length lo hi qs _ rs' hm, ?_⟩
    have := mergeBand_holdsMin width lo hi qs [] _ rs' hq hinit hm
    simpa using this
  refine ⟨hchar ps hfin, fun hidx => mergeBand_some width lo hi ps _ (by simp) hidx, ?_⟩
  intro ps' hperm
  have hfin' : ∀ p ∈ ps', isfinite p.2 = true := fun p hp => hfin p (hperm.mem_iff.1 hp)
  by_cases hidx : ∀ p ∈ ps, 0 ≤ p.1 ∧ p.1 < (width : Int)
  · obtain ⟨rs1, h1⟩ := mergeBand_some width lo hi ps (List.replicate width nan) (by simp) hidx
    obtain ⟨rs2, h2⟩ := mergeBand_some width lo hi ps' (List.replicate width nan) (by simp)
      (fun p hp => hidx p (hperm.mem_iff.1 hp))
    obtain ⟨hl1, hc1⟩ := hchar ps hfin rs1 h1
    obtain ⟨hl2, hc2⟩ := hchar ps' hfin' rs2 h2
    rw [h1, h2]
    congr 1
    apply List.ext_getElem?
    intro i
    by_cases hi' : i < width
    · obtain ⟨v1, hv1, hm1⟩ := hc1 i hi'
      obtain ⟨v2, hv2, hm2⟩ := hc2 i hi'
      rw [hv1, hv2]
      congr 1
      exact holdsMin_unique v2 v1 _ _ hm2 hm1 (hperm.filterMap _)
    · rw [List.getElem?_eq_none (by omega), List.getElem?_eq_none (by omega)]
  · push_neg at hidx
    obtain ⟨p, hp, hbad⟩ := hidx
    have hbad' : ¬ (0 ≤ p.1 ∧ p.1 < (width : Int)) := fun h => by
      have := hbad h.1
      omega
    rw [mergeBand_none width lo hi p hbad' ps _ (by simp) hp,
      mergeBand_none width lo hi p hbad' ps' _ (by simp) (hperm.mem_iff.2 hp)]

/-- C18 on four pixels and two bins with range limits 0 and 10: bin 0 ends at 2, the
minimum of 3, 2 and 5; bin 1 stays NaN because 20 is out of range; and the reversed order
gives the same vector. -/
theorem band_nearest_valid_wins_witness :
    (∀ p ∈ examplePixels, isfinite p.2 = true) ∧
    mergeBand examplePixels (fin 0) (fin 10) (List.replicate 2 nan) = some [fin 2, nan] ∧
    mergeBand examplePixels.reverse (fin 0) (fin 10) (List.replicate 2 nan) =
      mergeBand examplePixels (fin 0) (fin 10) (List.replicate 2 nan) :=
  ⟨by decide, by decide!,
    (band_nearest_valid_wins examplePixels 2 (fin 0) (fin 10) (by decide)).2.2
      examplePixels.reverse (List.reverse_perm _)⟩

/-! ## Theorems: the field-of-view solver -/

/-- The run of the scenario. -/
theorem scenario_run :
    convert_msg scenarioMath exampleConfig scenarioFrame scenarioCamera = .ok scenarioScan := by
  decide!

/-- The angle between two rays is never negative. -/
theorem angle_between_rays_nonneg (ray1 ray2 : Point3d) (theta : ℝ)
    (h : angle_between_rays ray1 ray2 theta) : 0 ≤ theta := by
  obtain ⟨m1, m2, _, _, rfl⟩ := h
  exact Real.arccos_nonneg _

/-- The angle between the centre ray and the ray through column `u` of the centre row of
an undistorted pinhole camera, in either order, is `arccos (1 / sqrt (x ^ 2 + 1))` with
`x = (u - cx) / fx`. -/
theorem pinhole_angle (cam : CameraModel) (u : ℚ) (theta : ℝ)
    (h : angle_between_rays (pinholeRay cam u cam.cy) (pinholeRay cam cam.cx cam.cy) theta ∨
      angle_between_rays (pinholeRay cam cam.cx cam.cy) (pinholeRay cam u cam.cy) theta) :
    theta = Real.arccos (1 / Real.sqrt ((((u - cam.cx) / cam.fx : ℚ) : ℝ) ^ 2 + 1)) := by
  have hc : Real.sqrt (((((cam.cx - cam.cx) / cam.fx : ℚ) : ℝ)) ^ 2 +
      ((((cam.cy - cam.cy) / cam.fy : ℚ) : ℝ)) ^ 2 + (((1 : ℚ) : ℝ)) ^ 2) = 1 := by
    simp
  have hr : Real.sqrt (((((u - cam.cx) / cam.fx : ℚ) : ℝ)) ^ 2 +
      ((((cam.cy - cam.cy) / cam.fy : ℚ) : ℝ)) ^ 2 + (((1 : ℚ) : ℝ)) ^ 2) =
      Real.sqrt ((((u - cam.cx) / cam.fx : ℚ) : ℝ) ^ 2 + 1) := by
    simp
  rcases h with h | h
  · obtain ⟨m1, m2, h1, h2, rfl⟩ := h
    unfold magnitude_of_ray at h1 h2
    simp only [pinholeRay] at h1 h2
    rw [hr] at h1
    rw [hc] at h2
    rw [h1, h2]
    simp [dotProduct, pinholeRay]
  · obtain ⟨m1, m2, h1, h2, rfl⟩ := h
    unfold magnitude_of_ray at h1 h2
    simp only [pinholeRay] at h1 h2
    rw [hc] at h1
    rw [hr] at h2
    rw [h1, h2]
    simp [dotProduct, pinholeRay]

/-- That angle is zero exactly when the column is the principal point. -/
theorem pinhole_angle_eq_zero (cam : CameraModel) (hfx : cam.fx ≠ 0) (u : ℚ) :
    Real.arccos (1 / Real.sqrt ((((u - cam.cx) / cam.fx : ℚ) : ℝ) ^ 2 + 1)) = 0 ↔
      u = cam.cx := by
  set x : ℝ := (((u - cam.cx) / cam.fx : ℚ) : ℝ) with hx
  have hpos : (0 : ℝ) ≤ x ^ 2 + 1 := by positivity
  have hs1 : 1 ≤ Real.sqrt (x ^ 2 + 1) := by
    rw [Real.le_sqrt' (zero_lt_one : (0 : ℝ) < 1)]
    nlinarith [sq_nonneg x]
  have hs0 : 0 < Real.sqrt (x ^ 2 + 1) := lt_of_lt_of_le one_pos hs1
  rw [Real.arccos_eq_zero, le_div_iff₀ hs0, one_mul]
  constructor
  · intro hle
    have heq : Real.sqrt (x ^ 2 + 1) = 1 := le_antisymm hle hs1
    have hsq : x ^ 2 + 1 = 1 := by
      have := Real.sq_sqrt hpos
      rw [heq] at this
      linarith
    have hx0 : x = 0 := by
      have : x ^ 2 = 0 := by linarith
      exact pow_eq_zero_iff (by norm_num) |>.1 this
    have hq : (u - cam.cx) / cam.fx = 0 := by
      have : (((u - cam.cx) / cam.fx : ℚ) : ℝ) = ((0 : ℚ) : ℝ) := by rw [← hx, hx0]; simp
      exact_mod_cast this
    rcases div_eq_zero_iff.1 hq with h | h
    · linarith
    · exact absurd h hfx
  · intro hu
    have : x = 0 := by rw [hx, hu]; simp
    rw [this]
    simp

/-- The solver relation holds of the angles computed from the rays. -/
theorem fovSolved_exists (left_ray center_ray right_ray : Point3d) :
    FovSolved left_ray center_ray right_ray
      (Real.arccos ((dotProduct left_ray center_ray : ℝ) /
        (Real.sqrt ((left_ray.x : ℝ) ^ 2 + (left_ray.y : ℝ) ^ 2 + (left_ray.z : ℝ) ^ 2) *
          Real.sqrt ((center_ray.x : ℝ) ^ 2 + (center_ray.y : ℝ) ^ 2 + (center_ray.z : ℝ) ^ 2))))
      (-Real.arccos ((dotProduct center_ray right_ray : ℝ) /
        (Real.sqrt ((center_ray.x : ℝ) ^ 2 + (center_ray.y : ℝ) ^ 2 + (center_ray.z : ℝ) ^ 2) *
          Real.sqrt ((right_ray.x : ℝ) ^ 2 + (right_ray.y : ℝ) ^ 2 + (right_ray.z : ℝ) ^ 2)))) :=
  ⟨_, _, ⟨_, _, rfl, rfl, rfl⟩, ⟨_, _, rfl, rfl, rfl⟩, rfl, rfl⟩

/-- For a frame one pixel wide and a principal point in column 0, both angles are 0. -/
theorem fov_degenerate : fovAngles exampleCamera 1 0 0 := by
  refine ⟨0, 0, ⟨1, 1, ?_, ?_, ?_⟩, ⟨1, 1, ?_, ?_, ?_⟩, rfl, by simp⟩ <;>
    simp [magnitude_of_ray, pinholeRay, dotProduct, exampleCamera, rightColumn]

/-- C16 (counterexample): for a frame one pixel wide whose principal point is column 0
the left, centre and right rays coincide and the solver yields angle_max = 0 and
angle_min = 0; the conversion with band height 0 succeeds with these two angles, and
angle_min < angle_max does not hold. -/
theorem fov_not_strict_counterexample :
    fovAngles exampleCamera pixelFrame.width 0 0 ∧ ¬ ((0 : ℝ) < 0) ∧
    (convert_msg degenerateMath (bandConfig 0) pixelFrame exampleCamera).toOption.map
      (fun scan => (scan.angle_min, scan.angle_max, scan.ranges)) =
        some (fin 0, fin 0, [nan]) ∧
    FVal.lt (fin 0) (fin 0) = false :=
  ⟨fov_degenerate, lt_irrefl 0, by decide!, by decide⟩

/-- C16 (amended): with angle_max the angle between the left and the centre ray and
angle_min minus the angle between the centre and the right ray, angle_min <= 0 <= angle_max
always, and angle_min < angle_max unless both angles are 0; for an undistorted pinhole
camera with fx not 0 that exception is exactly cx = 0 = width - 1. -/
theorem fov_angles_order (left_ray center_ray right_ray : Point3d) (angle_max angle_min : ℝ)
    (h : FovSolved left_ray center_ray right_ray angle_max angle_min) :
    angle_min ≤ 0 ∧ 0 ≤ angle_max ∧
    (angle_min < angle_max ↔ ¬ (angle_max = 0 ∧ angle_min = 0)) ∧
    (∀ (cam : CameraModel) (width : Nat), cam.fx ≠ 0 →
      left_ray = pinholeRay cam 0 cam.cy →
      center_ray = pinholeRay cam cam.cx cam.cy →
      right_ray = pinholeRay cam (rightColumn width : ℚ) cam.cy →
      (angle_min < angle_max ↔ ¬ (cam.cx = 0 ∧ (rightColumn width : ℚ) = cam.cx))) := by
  obtain ⟨a, b, ha, hb, hmax, hmin⟩ := h
  rw [hmax, hmin]
  have ha0 := angle_between_rays_nonneg _ _ _ ha
  have hb0 := angle_between_rays_nonneg _ _ _ hb
  have hstrict : -b < a ↔ ¬ (a = 0 ∧ -b = 0) := by
    constructor
    · rintro hlt ⟨h1, h2⟩
      linarith
    · intro hne
      by_contra hle
      apply hne
      constructor <;> linarith
  refine ⟨by linarith, ha0, hstrict, ?_⟩
  intro cam width hfx hl hc hr
  subst hl hc hr
  have ha' := pinhole_angle cam 0 a (Or.inl ha)
  have hb' := pinhole_angle cam (rightColumn width : ℚ) b (Or.inr hb)
  have hza : a = 0 ↔ (0 : ℚ) = cam.cx := by
    rw [ha']; exact pinhole_angle_eq_zero cam hfx 0
  have hzb : b = 0 ↔ (rightColumn width : ℚ) = cam.cx := by
    rw [hb']; exact pinhole_angle_eq_zero cam hfx _
  rw [hstrict, neg_eq_zero, hza, hzb]
  constructor
  · rintro hne ⟨h1, h2⟩
    exact hne ⟨h1.symm, h2⟩
  · rintro hne ⟨h1, h2⟩
    exact hne ⟨h1.symm, h2⟩

/-- The amended C16 on the rays of the scenario camera and a frame 4 pixels wide. -/
theorem fov_angles_order_witness :
    ∃ angle_max angle_min : ℝ,
      FovSolved (pinholeRay scenarioCamera 0 1) (pinholeRay scenarioCamera (3 / 2) 1)
        (pinholeRay scenarioCamera 3 1) angle_max angle_min ∧
      angle_min ≤ 0 ∧ 0 ≤ angle_max :=
  ⟨_, _,
    fovSolved_exists (pinholeRay scenarioCamera 0 1) (pinholeRay scenarioCamera (3 / 2) 1)
      (pinholeRay scenarioCamera 3 1),
    (fov_angles_order _ _ _ _ _
      (fovSolved_exists (pinholeRay scenarioCamera 0 1) (pinholeRay scenarioCamera (3 / 2) 1)
        (pinholeRay scenarioCamera 3 1))).1,
    (fov_angles_order _ _ _ _ _
      (fovSolved_exists (pinholeRay scenarioCamera 0 1) (pinholeRay scenarioCamera (3 / 2) 1)
        (pinholeRay scenarioCamera 3 1))).2.1⟩

/-! ## Theorems: the end-to-end scenario -/

/-- In a 3-4-5 triangle: the arc cosine of 4/5 is the arc tangent of 3/4. -/
theorem arccos_four_fifths : Real.arccos (4 / 5) = Real.arctan (3 / 4) := by
  rw [Real.arccos_eq_arctan (by norm_num)]
  have h1 : (1 : ℝ) - (4 / 5) ^ 2 = (3 / 5) ^ 2 := by norm_num
  rw [h1, Real.sqrt_sq (by norm_num)]
  norm_num

/-- The angle of the scenario camera at a column whose ray has slope 3/4 on either side. -/
theorem arccos_slope_three_quarters (x : ℝ) (hx : x ^ 2 = (3 / 4) ^ 2) :
    Real.arccos (1 / Real.sqrt (x ^ 2 + 1)) = Real.arctan (3 / 4) := by
  have h1 : x ^ 2 + 1 = (5 / 4 : ℝ) ^ 2 := by rw [hx]; norm_num
  rw [h1, Real.sqrt_sq (by norm_num)]
  have h2 : (1 : ℝ) / (5 / 4) = 4 / 5 := by norm_num
  rw [h2, arccos_four_fifths]

/-- The angles of the scenario: plus and minus the arc tangent of 3/4. -/
theorem scenario_angles (angle_max angle_min : ℝ)
    (h : fovAngles scenarioCamera 4 angle_max angle_min) :
    angle_max = Real.arctan (3 / 4) ∧ angle_min = -Real.arctan (3 / 4) := by
  obtain ⟨a, b, ha, hb, hmax, hmin⟩ := h
  have ha' := pinhole_angle scenarioCamera 0 a (Or.inl ha)
  have hb' := pinhole_angle scenarioCamera (rightColumn 4 : ℚ) b (Or.inr hb)
  rw [arccos_slope_three_quarters _ (by norm_num [scenarioCamera])] at ha'
  rw [arccos_slope_three_quarters _ (by norm_num [scenarioCamera, rightColumn])] at hb'
  rw [hmax, hmin, ha', hb']
  exact ⟨rfl, rfl⟩

/-- Three times the arc tangent of 1/4 exceeds the arc tangent of 3/4, which exceeds the
arc tangent of 1/4. -/
theorem arctan_quarter_bounds :
    Real.arctan (1 / 4) < Real.arctan (3 / 4) ∧
    Real.arctan (3 / 4) < 3 * Real.arctan (1 / 4) ∧
    0 < Real.arctan (1 / 4) := by
  have h2 : Real.arctan (1 / 4) + Real.arctan (1 / 4) = Real.arctan (8 / 15) := by
    rw [Real.arctan_add (by norm_num)]
    norm_num
  have h3 : Real.arctan (8 / 15) + Real.arctan (1 / 4) = Real.arctan (47 / 52) := by
    rw [Real.arctan_add (by norm_num)]
    norm_num
  have h4 : 3 * Real.arctan (1 / 4) = Real.arctan (47 / 52) := by
    rw [← h3, ← h2]; ring
  refine ⟨Real.arctan_strictMono (by norm_num), ?_, ?_⟩
  · rw [h4]
    exact Real.arctan_strictMono (by norm_num)
  · have := Real.arctan_strictMono (by norm_num : (0 : ℝ) < 1 / 4)
    rwa [Real.arctan_zero] at this

/-- Every column has an exact quotient: the relation is not empty. -/
theorem idealQuotient_exists (cam : CameraModel) (width : Nat) (u : Int) :
    ∃ q : ℝ, idealQuotient cam width u q :=
  ⟨_, _, _, fovSolved_exists _ _ _, rfl⟩

/-- The exact quotient of column `u` in the scenario. -/
theorem scenario_quotient (u : Int) (q : ℝ) (h : idealQuotient scenarioCamera 4 u q) :
    q = (-Real.arctan (((u : ℝ) - 3 / 2) / 2) + Real.arctan (3 / 4)) /
      ((Real.arctan (3 / 4) + Real.arctan (3 / 4)) / 3) := by
  obtain ⟨angle_max, angle_min, hf, hq⟩ := h
  obtain ⟨h1, h2⟩ := scenario_angles _ _ hf
  rw [hq, h1, h2]
  have hr : ((rightColumn 4 : ℚ) : ℝ) = 3 := by norm_num [rightColumn]
  have hx : ((((u : ℚ) - scenarioCamera.cx) / scenarioCamera.fx : ℚ) : ℝ) =
      ((u : ℝ) - 3 / 2) / 2 := by
    simp [scenarioCamera]
  rw [hr, hx]
  ring_nf

/-- The bins of the four columns in exact arithmetic: 3, 2, 0 and 0. -/
theorem scenario_floors (q0 q1 q2 q3 : ℝ)
    (h0 : idealQuotient scenarioCamera 4 0 q0) (h1 : idealQuotient scenarioCamera 4 1 q1)
    (h2 : idealQuotient scenarioCamera 4 2 q2) (h3 : idealQuotient scenarioCamera 4 3 q3) :
    ⌊q0⌋ = 3 ∧ ⌊q1⌋ = 2 ∧ ⌊q2⌋ = 0 ∧ ⌊q3⌋ = 0 := by
  obtain ⟨hab, hba, ha0⟩ := arctan_quarter_bounds
  have hb0 : 0 < Real.arctan (3 / 4) := lt_trans ha0 hab
  have hD : 0 < (Real.arctan (3 / 4) + Real.arctan (3 / 4)) / 3 := by positivity
  have e0 := scenario_quotient 0 q0 h0
  have e1 := scenario_quotient 1 q1 h1
  have e2 := scenario_quotient 2 q2 h2
  have e3 := scenario_quotient 3 q3 h3
  have a0 : Real.arctan ((((0 : Int) : ℝ) - 3 / 2) / 2) = -Real.arctan (3 / 4) := by
    rw [← Real.arctan_neg]; norm_num
  have a1 : Real.arctan ((((1 : Int) : ℝ) - 3 / 2) / 2) = -Real.arctan (1 / 4) := by
    rw [← Real.arctan_neg]; norm_num
  have a2 : Real.arctan ((((2 : Int) : ℝ) - 3 / 2) / 2) = Real.arctan (1 / 4) := by
    norm_num
  have a3 : Real.arctan ((((3 : Int) : ℝ) - 3 / 2) / 2) = Real.arctan (3 / 4) := by
    norm_num
  rw [a0] at e0
  rw [a1] at e1
  rw [a2] at e2
  rw [a3] at e3
  refine ⟨?_, ?_, ?_, ?_⟩
  · rw [e0, Int.floor_eq_iff]
    constructor
    · rw [le_div_iff₀ hD]; push_cast; linarith
    · rw [div_lt_iff₀ hD]; push_cast; linarith
  · rw [e1, Int.floor_eq_iff]
    constructor
    · rw [le_div_iff₀ hD]; push_cast; linarith
    · rw [div_lt_iff₀ hD]; push_cast; linarith
  · rw [e2, Int.floor_eq_iff]
    constructor
    · rw [le_div_iff₀ hD]; push_cast; linarith
    · rw [div_lt_iff₀ hD]; push_cast; linarith
  · rw [e3, Int.floor_eq_iff]
    constructor
    · rw [le_div_iff₀ hD]; push_cast; linarith
    · rw [div_lt_iff₀ hD]; push_cast; linarith

/-- The exact distances of the four columns of the scenario are within 1/1000 of 1.25,
2.0616, 3.0923 and 5. -/
theorem scenario_ranges (r0 r1 r2 r3 : ℝ)
    (h0 : idealRange scenarioCamera 0 1 r0) (h1 : idealRange scenarioCamera 1 2 r1)
    (h2 : idealRange scenarioCamera 2 3 r2) (h3 : idealRange scenarioCamera 3 4 r3) :
    |r0 - 5 / 4| ≤ 1 / 1000 ∧ |r1 - 20616 / 10000| ≤ 1 / 1000 ∧
    |r2 - 30923 / 10000| ≤ 1 / 1000 ∧ |r3 - 5| ≤ 1 / 1000 := by
  have key : ∀ (x s : ℝ), 0 < s - 1 / 1000 → (s - 1 / 1000) ^ 2 ≤ x → x ≤ (s + 1 / 1000) ^ 2 →
      |Real.sqrt x - s| ≤ 1 / 1000 := by
    intro x s hs hlo hhi
    have h1 : s - 1 / 1000 ≤ Real.sqrt x := (Real.le_sqrt' hs).2 hlo
    have h2 : Real.sqrt x ≤ s + 1 / 1000 := (Real.sqrt_le_left (by linarith)).2 hhi
    rw [abs_le]
    constructor <;> linarith
  unfold idealRange at h0 h1 h2 h3
  rw [h0, h1, h2, h3]
  refine ⟨key _ _ ?_ ?_ ?_, key _ _ ?_ ?_ ?_, key _ _ ?_ ?_ ?_, key _ _ ?_ ?_ ?_⟩ <;>
    norm_num [scenarioCamera]

/-- C12 (counterexample): in the scenario bin 1 of the returned scan is NaN, so not all
four bins are finite; in exact arithmetic no column has a quotient whose floor is 1. -/
theorem scenario_bin_one_nan_counterexample :
    (convert_msg scenarioMath exampleConfig scenarioFrame scenarioCamera).toOption.map
      (fun scan => scan.ranges[1]?) = some (some nan) ∧
    isfinite nan = false ∧
    (∀ q0 q1 q2 q3 : ℝ,
      idealQuotient scenarioCamera 4 0 q0 → idealQuotient scenarioCamera 4 1 q1 →
      idealQuotient scenarioCamera 4 2 q2 → idealQuotient scenarioCamera 4 3 q3 →
      ⌊q0⌋ ≠ 1 ∧ ⌊q1⌋ ≠ 1 ∧ ⌊q2⌋ ≠ 1 ∧ ⌊q3⌋ ≠ 1) := by
  refine ⟨by decide!, rfl, ?_⟩
  intro q0 q1 q2 q3 h0 h1 h2 h3
  obtain ⟨e0, e1, e2, e3⟩ := scenario_floors q0 q1 q2 q3 h0 h1 h2 h3
  rw [e0, e1, e2, e3]
  decide

/-- C12 (amended): the conversion of the scenario succeeds and yields a scan of length 4
whose bins are 3.0923, NaN, 2.0616 and 1.25: columns 2 and 3 both fall into bin 0, column
1 into bin 2, column 0 into bin 3, and no column into bin 1, which stays NaN; the three
finite bins lie within 0 and 10. The quotients and distances used are the exact ones: each
quotient has the floor of the exact quotient, each distance is within 1/1000 of the exact
distance. -/
theorem scenario_result :
    convert_msg scenarioMath exampleConfig scenarioFrame scenarioCamera = .ok scenarioScan ∧
    scenarioScan.ranges = [fin (30923 / 10000), nan, fin (20616 / 10000), fin (5 / 4)] ∧
    scenarioScan.ranges.length = scenarioFrame.width ∧
    (∀ v ∈ scenarioScan.ranges, v = nan ∨
      (isfinite v = true ∧ FVal.le (fin 0) v = true ∧ FVal.le v (fin 10) = true)) ∧
    (∀ q0 q1 q2 q3 : ℝ,
      idealQuotient scenarioCamera 4 0 q0 → idealQuotient scenarioCamera 4 1 q1 →
      idealQuotient scenarioCamera 4 2 q2 → idealQuotient scenarioCamera 4 3 q3 →
      floorIndex (scenarioMath.quotient 0) = some ⌊q0⌋ ∧
      floorIndex (scenarioMath.quotient 1) = some ⌊q1⌋ ∧
      floorIndex (scenarioMath.quotient 2) = some ⌊q2⌋ ∧
      floorIndex (scenarioMath.quotient 3) = some ⌊q3⌋) ∧
    scenarioMath.rangeF 0 (fin 1) = fin (5 / 4) ∧
    scenarioMath.rangeF 1 (fin 2) = fin (20616 / 10000) ∧
    scenarioMath.rangeF 2 (fin 3) = fin (30923 / 10000) ∧
    scenarioMath.rangeF 3 (fin 4) = fin 5 ∧
    (∀ r0 r1 r2 r3 : ℝ,
      idealRange scenarioCamera 0 1 r0 → idealRange scenarioCamera 1 2 r1 →
      idealRange scenarioCamera 2 3 r2 → idealRange scenarioCamera 3 4 r3 →
      |r0 - 5 / 4| ≤ 1 / 1000 ∧ |r1 - 20616 / 10000| ≤ 1 / 1000 ∧
      |r2 - 30923 / 10000| ≤ 1 / 1000 ∧ |r3 - 5| ≤ 1 / 1000) := by
  refine ⟨scenario_run, rfl, rfl, by decide!, ?_, by decide!, by decide!, by decide!,
    by decide!, scenario_ranges⟩
  intro q0 q1 q2 q3 h0 h1 h2 h3
  obtain ⟨e0, e1, e2, e3⟩ := scenario_floors q0 q1 q2 q3 h0 h1 h2 h3
  rw [e0, e1, e2, e3]
  decide!

end depthimage_to_laserscan
